import Mathlib

/-!
Verification of the scholarthynk-api hierarchical file-viewer subsystem.

This file shallowly embeds the tree-manager operations of the repository:
the file-viewer controller (`getFVItems`, `newFolder`, `renameFVItem`,
`deleteFVItem` with its inner `deleteFolderRecursively`) and the note
controller (`newNote`, `updateNote`).  The document store (a MongoDB
collection of `Note` documents) is modelled as a `List Doc` in natural
(insertion) order; `findOne` is `List.find?`, `deleteOne` removes the first
match, `updateOne` rewrites the first match in place, and `save` appends.
Identifiers are `Nat`s supplied by the caller (Mongoose generates ObjectIds
client-side, independently of the store contents); timestamps are `Nat`s
passed explicitly for `new Date()`.

JavaScript-specific behaviour is modelled faithfully:
- `!path` is false for an empty array, so only an absent (`undefined`/`null`)
  path is caught by the presence checks; absence is an `Option` `none`.
- a thrown `TypeError` (for example dereferencing the `null` result of a
  failed `findOne`) is caught by the surrounding `try` and answered with the
  generic 500 response, modelled as `Resp.internalError`.
- `newFolder`'s path-resolution failure executes `resp.status({error})`
  without ever sending a JSON body; this malformed reply is modelled as
  `Resp.badStatus`.
- a query whose `_id` is JavaScript `undefined` (out-of-bounds array index)
  has the `_id` constraint dropped by the driver; a query with `_id: null`
  matches nothing, as no stored document has a `null` id.
-/

/-- A document of the flat `notes` collection (model `Note.js`): fields
`_id`, `userId`, `name`, `parentFolder`, `type` ("folder"/"note"),
`lastEdited`, `children`, `fileContent`. -/
structure Doc where
  id : Nat
  userId : String
  name : String
  parentFolder : Option Nat
  type : String
  lastEdited : Nat
  children : List Nat
  fileContent : String
deriving DecidableEq, Repr

/-- HTTP-level outcome of a handler, abstracting the `resp.status(..).json(..)`
calls of the controllers. `okItems` carries the listing payload (the Boolean
records whether the body includes `success: true`, which the early-return on
a missing first folder omits). `badStatus` models the `resp.status({error})`
slip in `newFolder` that never sends a body. -/
inductive Resp where
  | okItems (withSuccessFlag : Bool) (folders files : List Doc)
  | okSimple
  | badRequest (msg : String)
  | notFound (msg : String)
  | conflict (msg : String)
  | internalError
  | badStatus (msg : String)
deriving DecidableEq, Repr

/-- Model of MongoDB `deleteOne`: remove the first document matching the
predicate, keep everything else in order. -/
def deleteOne (s : List Doc) (p : Doc → Bool) : List Doc :=
  match s with
  | [] => []
  | d :: rest => if p d then rest else d :: deleteOne rest p

/-- Model of MongoDB `updateOne`: rewrite the first document matching the
predicate in place, keep everything else in order. -/
def updateOne (s : List Doc) (p : Doc → Bool) (f : Doc → Doc) : List Doc :=
  match s with
  | [] => []
  | d :: rest => if p d then f d :: rest else d :: updateOne rest p f

/-- Path-segment loop of `renameFVItem` and `deleteFVItem` (`for i = 1; i <
path.length; i++`): each segment after the first must name a folder of the
caller under the previously resolved parent (`null` for the first).  Returns
the id of the last resolved folder (`none` when no segment was consumed,
matching `folderIds.length > 0 ? folderIds[folderIds.length-1] : null`), or
the failing segment. -/
def resolveChain (u : String) (s : List Doc) : List String → Option Nat → Except String (Option Nat)
  | [], parent => Except.ok parent
  | seg :: rest, parent =>
    match s.find? (fun d => d.userId == u && d.name == seg && d.parentFolder == parent && d.type == "folder") with
    | none => Except.error seg
    | some d => resolveChain u s rest (some d.id)

/-- Path-segment loop of `newFolder`, `newNote`, `updateNote` (and `getNote`):
iterates over every segment, pushing `null` for the literal "root" and
otherwise requiring a folder of the caller under the previously pushed value
(`folderIds[folderIds.length - 1] ?? null`).  Returns the last pushed value,
or the failing segment. -/
def resolveNC (u : String) (s : List Doc) : List String → Option Nat → Except String (Option Nat)
  | [], parent => Except.ok parent
  | seg :: rest, parent =>
    if seg == "root" then resolveNC u s rest none
    else
      match s.find? (fun d => d.userId == u && d.type == "folder" && d.name == seg && d.parentFolder == parent) with
      | none => Except.error seg
      | some d => resolveNC u s rest (some d.id)

/-- Lookup `findOne({userId, _id: parentFolderId})` performed by `newFolder`
and `newNote` after path resolution.  For an empty path `parentFolderId` is
the JavaScript `undefined` (`folderIds[-1]`), and the driver drops the `_id`
constraint; for a root-level parent it is `null`, which matches no stored
document. -/
def resolveParentDoc (u : String) (s : List Doc) (p : List String) (pid : Option Nat) : Option Doc :=
  if p.isEmpty then s.find? (fun d => d.userId == u)
  else
    match pid with
    | none => none
    | some pv => s.find? (fun d => d.userId == u && d.id == pv)

/-- Child loop of `deleteFolderRecursively`: for each id in the captured
`children` array, re-fetch the child document (skipping it silently when it
no longer exists), recurse into sub-folders via `dfrF` and delete notes
directly. -/
def delChildren (dfrF : List Doc → Nat → List Doc) (u : String) : List Doc → List Nat → List Doc
  | s, [] => s
  | s, c :: cs =>
    let s2 :=
      match s.find? (fun d => d.userId == u && d.id == c) with
      | none => s
      | some child =>
        if child.type == "folder" then dfrF s c
        else deleteOne s (fun d => d.userId == u && d.id == c)
    delChildren dfrF u s2 cs

/-- The recursive folder deletion of `deleteFVItem`: fetch the folder, delete
all children depth-first (children before their containing folder), detach
the folder from its parent's `children` (`$pull`) unless it is parentless,
then delete the folder document itself.  The JavaScript recursion is
unbounded; `fuel` bounds the recursion depth in the model, and the theorems
below show any fuel above the tree height gives the (fixed) result. -/
def deleteFolderRecursively (u : String) : Nat → List Doc → Nat → List Doc
  | 0, s, _ => s
  | fuel+1, s, folderId =>
    match s.find? (fun d => d.userId == u && d.id == folderId) with
    | none => s
    | some folder =>
      let s1 := delChildren (fun t c => deleteFolderRecursively u fuel t c) u s folder.children
      let s2 :=
        match folder.parentFolder with
        | some pid =>
          updateOne s1 (fun d => d.userId == u && d.id == pid)
            (fun d => { d with children := d.children.filter (fun c => c != folderId) })
        | none => s1
      deleteOne s2 (fun d => d.userId == u && d.id == folderId)

/-- Inner scan of `getFVItems`'s while-loop: walk the captured `children`
array looking for a child named like the current path segment.  Each child is
fetched with `findOne({userId, _id: child})` and its `name` is dereferenced
immediately, so a dangling child id throws (`Except.error`). -/
def scanChildren (u : String) (s : List Doc) (target : String) : List Nat → Except Unit (Option Nat)
  | [] => Except.ok none
  | c :: cs =>
    match s.find? (fun d => d.userId == u && d.id == c) with
    | none => Except.error ()
    | some d => if d.name == target then Except.ok (some d.id) else scanChildren u s target cs

/-- While-loop of `getFVItems` over the path segments from index 2 on: as
long as segments remain and the current folder has children, look for a
child matching the next segment; descend when found (re-fetching it with
`type: "folder"`, whose failure leaves a `null` that is dereferenced on the
next iteration or in the collection loop), otherwise break, returning the
deepest folder reached. -/
def walkSegs (u : String) (s : List Doc) : List String → Doc → Except Unit Doc
  | [], cur => Except.ok cur
  | seg :: rest, cur =>
    if cur.children.length > 0 then
      match scanChildren u s seg cur.children with
      | Except.error _ => Except.error ()
      | Except.ok none => Except.ok cur
      | Except.ok (some nid) =>
        match s.find? (fun d => d.userId == u && d.id == nid && d.type == "folder") with
        | none => Except.error ()
        | some nxt => walkSegs u s rest nxt
    else Except.ok cur

/-- Collection loop of `getFVItems`: fetch every child of the final folder.
The results (including `null`s for dangling ids) are pushed and then
partitioned by a `forEach` dereferencing `item.type`, so any missing child
document makes the handler throw: `none` here. -/
def collectChildren (u : String) (s : List Doc) : List Nat → Option (List Doc)
  | [] => some []
  | c :: cs =>
    match s.find? (fun d => d.userId == u && d.id == c) with
    | none => none
    | some d => (collectChildren u s cs).map (fun l => d :: l)

/-- Match of `name: path[1]` in `getFVItems`'s first lookup: an out-of-bounds
index is `undefined` and the driver drops the constraint. -/
def optNameMatch (v : Option String) (x : String) : Bool :=
  match v with
  | some nm => x == nm
  | none => true

/-- Handler `getFVItems(req, resp)` of the file-viewer controller.  Inputs:
caller id `u` (`req.user`), `req.body.path` and `req.body.folder` (absent ↦
`none`; an empty string folder is also falsy).  Never mutates the store. -/
def getFVItems (u : String) (pathOpt : Option (List String)) (folderOpt : Option String) (s : List Doc) : Resp × List Doc :=
  match pathOpt, folderOpt with
  | none, _ => (Resp.badRequest "Folder and path are required!", s)
  | some _, none => (Resp.badRequest "Folder and path are required!", s)
  | some p, some folder =>
    if folder == "" then (Resp.badRequest "Folder and path are required!", s)
    else if folder == "root" then
      (Resp.okItems true
        (s.filter (fun d => d.userId == u && d.parentFolder == none && d.type == "folder"))
        (s.filter (fun d => d.userId == u && d.parentFolder == none && d.type == "note")), s)
    else
      match s.find? (fun d => d.userId == u && optNameMatch (p.get? 1) d.name && d.parentFolder == none && d.type == "folder") with
      | none => (Resp.okItems false [] [], s)
      | some first =>
        match walkSegs u s (p.drop 2) first with
        | Except.error _ => (Resp.internalError, s)
        | Except.ok cur =>
          match collectChildren u s cur.children with
          | none => (Resp.internalError, s)
          | some items =>
            (Resp.okItems true (items.filter (fun d => d.type == "folder"))
              (items.filter (fun d => d.type != "folder")), s)

/-- Handler `newFolder(req, resp)`.  Inputs: caller id, `req.body.parentPath`
(absent ↦ `none`; iterating an absent path throws), `req.body.folderName`,
the fresh id Mongoose generates for the new document, and the current time.
The inserted document carries `parentFolder` as the resolved parent document
cast to its id (`null` stays `null`). -/
def newFolder (u : String) (pathOpt : Option (List String)) (folderName : String) (nid : Nat) (now : Nat) (s : List Doc) : Resp × List Doc :=
  if folderName.length == 0 then (Resp.badRequest "Folder name cannot be empty!", s)
  else if folderName == "root" then (Resp.badRequest "Folder cannot be named 'root'!", s)
  else
    match pathOpt with
    | none => (Resp.internalError, s)
    | some p =>
      match resolveNC u s p none with
      | Except.error seg => (Resp.badStatus ("Folder \"" ++ seg ++ "\" was not found in path!"), s)
      | Except.ok pid =>
        let parentFolder := resolveParentDoc u s p pid
        let pfId := parentFolder.map Doc.id
        match s.find? (fun d => d.userId == u && d.name == folderName && d.parentFolder == pfId && d.type == "folder") with
        | some _ => (Resp.conflict "Folder already exists!", s)
        | none =>
          let nd : Doc := ⟨nid, u, folderName, pfId, "folder", now, [], ""⟩
          let s1 := s ++ [nd]
          let s2 :=
            if parentFolder.isSome then
              updateOne s1 (fun d => d.userId == u && some d.id == nd.parentFolder)
                (fun d => { d with children := d.children ++ [nid] })
            else s1
          (Resp.okSimple, s2)

/-- Handler `renameFVItem(req, resp)`.  Inputs: caller id, `req.body.oldName`,
`req.body.newName`, `req.body.path` (absent ↦ `none`; reading `.length` of an
absent path throws).  The final `updateOne` matches on `_id` alone, exactly
as in the source, and sets only `name`. -/
def renameFVItem (u : String) (oldName newName : String) (pathOpt : Option (List String)) (s : List Doc) : Resp × List Doc :=
  if newName == "root" then (Resp.badRequest "Item cannot be named root!", s)
  else
    match pathOpt with
    | none => (Resp.internalError, s)
    | some p =>
      match resolveChain u s (p.drop 1) none with
      | Except.error seg => (Resp.notFound ("Folder \"" ++ seg ++ "\" not found in path!"), s)
      | Except.ok pid =>
        match s.find? (fun d => d.userId == u && d.name == oldName && d.parentFolder == pid) with
        | none => (Resp.notFound ("Item \"" ++ oldName ++ "\" not found in path!"), s)
        | some item =>
          match s.find? (fun d => d.userId == u && d.name == newName && d.parentFolder == pid) with
          | some _ => (Resp.conflict "Item already exists!", s)
          | none =>
            (Resp.okSimple, updateOne s (fun d => d.id == item.id) (fun d => { d with name := newName }))

/-- Handler `deleteFVItem(req, resp)`.  Inputs: caller id, `req.body.path`
(absent ↦ `none`), `req.body.folder` (the target item name), and the
recursion budget for `deleteFolderRecursively`. -/
def deleteFVItem (u : String) (pathOpt : Option (List String)) (itemName : String) (fuel : Nat) (s : List Doc) : Resp × List Doc :=
  if itemName == "root" then (Resp.badRequest "You cannot delete the root folder!", s)
  else
    match pathOpt with
    | none => (Resp.internalError, s)
    | some p =>
      match resolveChain u s (p.drop 1) none with
      | Except.error seg => (Resp.notFound ("The item \"" ++ seg ++ "\" was not found!"), s)
      | Except.ok pid =>
        match s.find? (fun d => d.userId == u && d.name == itemName && d.parentFolder == pid) with
        | none => (Resp.notFound "The item you want to delete was not found!", s)
        | some target =>
          if target.type == "note" then
            let s1 := deleteOne s (fun d => d.userId == u && d.id == target.id)
            let s2 :=
              match target.parentFolder with
              | some pp =>
                updateOne s1 (fun d => d.userId == u && d.id == pp)
                  (fun d => { d with children := d.children.filter (fun c => c != target.id) })
              | none => s1
            (Resp.okSimple, s2)
          else
            (Resp.okSimple, deleteFolderRecursively u fuel s target.id)

/-- Handler `newNote(req, resp)` of the note controller.  Inputs: caller id,
`req.body.path` (absent ↦ `none`, rejected 400 before the `try`), the fresh
id for the new document and the current time.  The note is always named
"Untitled" with empty content; the parent's `children` list is pushed only
when the resolved parent document exists.  For an empty path the pushed
query's `_id` is `newNote.parentFolder` = the JavaScript `undefined`
(`folderIds[-1]` with the parent lookup truthy), so the driver drops the
`_id` constraint and the `updateOne({userId})` pushes onto the caller's
first document; for a nonempty path it is the resolved parent's id. -/
def newNote (u : String) (pathOpt : Option (List String)) (nid : Nat) (now : Nat) (s : List Doc) : Resp × List Doc :=
  match pathOpt with
  | none => (Resp.badRequest "The location to create the note was not provided!", s)
  | some p =>
    match resolveNC u s p none with
    | Except.error seg => (Resp.notFound ("Folder \"" ++ seg ++ "\" was not found in path!"), s)
    | Except.ok pid =>
      let parentFolder := resolveParentDoc u s p pid
      let noteParent : Option Nat := if parentFolder.isSome then pid else none
      let nd : Doc := ⟨nid, u, "Untitled", noteParent, "note", now, [], ""⟩
      let s1 := s ++ [nd]
      let s2 :=
        if parentFolder.isSome then
          if p.isEmpty then
            updateOne s1 (fun d => d.userId == u)
              (fun d => { d with children := d.children ++ [nid] })
          else
            updateOne s1 (fun d => d.userId == u && some d.id == nd.parentFolder)
              (fun d => { d with children := d.children ++ [nid] })
        else s1
      (Resp.okSimple, s2)

/-- Handler `updateNote(req, resp)`.  Inputs: caller id, `req.body.title`,
`req.body.oldTitle`, `req.body.content`, `req.body.path` (absent ↦ `none`,
rejected 400 before the `try`), and the current time.  On success sets
`fileContent`, `name` and `lastEdited` in one update. -/
def updateNote (u : String) (title oldTitle content : String) (pathOpt : Option (List String)) (now : Nat) (s : List Doc) : Resp × List Doc :=
  match pathOpt with
  | none => (Resp.badRequest "The location of the note was not provided!", s)
  | some p =>
    if title.length == 0 || oldTitle.length == 0 then (Resp.badRequest "The title of the note can not be empty!", s)
    else if title == "root" then (Resp.badRequest "You cannot name the note 'root'!", s)
    else
      match resolveNC u s p none with
      | Except.error seg => (Resp.notFound ("Folder \"" ++ seg ++ "\" was not found in path!"), s)
      | Except.ok pid =>
        let note? :=
          if p.length != 1 then
            if p.isEmpty then s.find? (fun d => d.userId == u && d.name == oldTitle && d.type == "note")
            else s.find? (fun d => d.userId == u && d.name == oldTitle && d.parentFolder == pid && d.type == "note")
          else s.find? (fun d => d.userId == u && d.name == oldTitle && d.parentFolder == none && d.type == "note")
        match note? with
        | none => (Resp.notFound "The note you are trying to update was not found", s)
        | some n =>
          (Resp.okSimple,
            updateOne s (fun d => d.userId == u && d.id == n.id)
              (fun d => { d with fileContent := content, name := title, lastEdited := now }))

/-- Ids of all documents in a store are pairwise distinct (the store assigns
globally unique `_id`s). -/
def UniqIds (s : List Doc) : Prop := (s.map Doc.id).Nodup

/-- No document of the caller with the given id remains in the store. -/
def noOwnedDoc (u : String) (s : List Doc) (x : Nat) : Prop :=
  ∀ d ∈ s, d.userId = u → d.id ≠ x

/-- Descendant relation of the children graph restricted to the caller's
documents: `Desc u s a x` holds when `x` is reachable from `a` (inclusively)
following `children` edges of documents owned by `u`. -/
inductive Desc (u : String) (s : List Doc) : Nat → Nat → Prop
  | refl (a : Nat) : Desc u s a a
  | snoc {a y x : Nat} (hay : Desc u s a y) (d : Doc) (hd : d ∈ s) (hu : d.userId = u)
      (hid : d.id = y) (hx : x ∈ d.children) : Desc u s a x

/-- Weak consistency of a caller's documents, tolerant of dangling child
references: ids are unique; every child id of an owned document either
resolves to nothing at all or to an owned document whose `parentFolder`
points back; `rank` strictly decreases along children edges (so the children
graph is acyclic and of bounded depth); non-folders have no children; and no
`children` list repeats an id. -/
structure InvW (u : String) (rank : Nat → Nat) (s : List Doc) : Prop where
  uniq : UniqIds s
  coh : ∀ d ∈ s, d.userId = u → ∀ c ∈ d.children,
      (∀ e ∈ s, e.id ≠ c) ∨ (∃ e ∈ s, e.id = c ∧ e.userId = u ∧ e.parentFolder = some d.id)
  rankOK : ∀ d ∈ s, d.userId = u → ∀ c ∈ d.children, rank c < rank d.id
  noteNoKids : ∀ d ∈ s, d.userId = u → d.type ≠ "folder" → d.children = []
  kidsNodup : ∀ d ∈ s, d.userId = u → d.children.Nodup

/-- Full consistency of a caller's documents (the spec's invariants): weak
consistency, every child reference resolves (no dangling ids), and
`parentFolder` back-references are mirrored in the parent's `children`. -/
structure Consistent (u : String) (rank : Nat → Nat) (s : List Doc) extends InvW u rank s : Prop where
  cohStrict : ∀ d ∈ s, d.userId = u → ∀ c ∈ d.children,
      ∃ e ∈ s, e.id = c ∧ e.userId = u ∧ e.parentFolder = some d.id
  parentBack : ∀ d ∈ s, d.userId = u → ∀ pv, d.parentFolder = some pv →
      ∃ e ∈ s, e.id = pv ∧ e.userId = u ∧ d.id ∈ e.children

/-- Documents of the caller, in store order (used to state per-user
isolation). -/
def projU (u : String) (s : List Doc) : List Doc := s.filter (fun d => d.userId == u)

/-- Documents of every other user, in store order. -/
def othersU (u : String) (s : List Doc) : List Doc := s.filter (fun d => d.userId != u)

/-- Two documents agreeing on every field the path-resolution and lookup
queries read (everything except `lastEdited`, `children` and
`fileContent`). -/
def coreEq (a b : Doc) : Prop :=
  a.id = b.id ∧ a.userId = b.userId ∧ a.name = b.name ∧ a.parentFolder = b.parentFolder ∧
    a.type = b.type

/-- Store `t` preserves every successful core-field query of store `s` up to
`coreEq` (used to carry path resolution across an insert and a
children-list update). -/
def FindStable (s t : List Doc) : Prop :=
  ∀ p : Doc → Bool, (∀ a b, coreEq a b → p a = p b) →
    ∀ d, s.find? p = some d → ∃ d2, t.find? p = some d2 ∧ coreEq d2 d

/-- Document `a` is document `b` with a possibly shrunken `children` list and
every other field unchanged: the shape deletion leaves surviving documents
in. -/
def DocShr (a b : Doc) : Prop :=
  a.id = b.id ∧ a.userId = b.userId ∧ a.name = b.name ∧ a.parentFolder = b.parentFolder ∧
    a.type = b.type ∧ a.lastEdited = b.lastEdited ∧ a.fileContent = b.fileContent ∧
    a.children.Sublist b.children

/-- Store `r` arises from store `t` by deleting documents and shrinking
`children` lists: the id sequence of `r` is a sublist of that of `t`, and
every document of `r` shrinks from a document of `t`. -/
def StoreSub (r t : List Doc) : Prop :=
  ((r.map Doc.id).Sublist (t.map Doc.id)) ∧ ∀ a ∈ r, ∃ b ∈ t, DocShr a b

theorem find?_filter_of_imp (l : List Doc) (p f : Doc → Bool)
    (h : ∀ d, p d = true → f d = true) : (l.filter f).find? p = l.find? p := by
  induction l with
  | nil => rfl
  | cons d rest ih =>
    by_cases hp : p d = true
    · have hf := h d hp
      simp [List.filter, hf, List.find?, hp, ih]
    · have hp' : p d = false := by simpa using hp
      by_cases hf : f d = true
      · simp [List.filter, hf, List.find?, hp', ih]
      · have hf' : f d = false := by simpa using hf
        simp [List.filter, hf', List.find?, hp', ih]

theorem find?_eq_some_of_unique (l : List Doc) (p : Doc → Bool) (d : Doc)
    (hd : d ∈ l) (hp : p d = true) (huniq : ∀ e ∈ l, p e = true → e = d) :
    l.find? p = some d := by
  induction l with
  | nil => cases hd
  | cons e rest ih =>
    rcases List.mem_cons.1 hd with rfl | hmem
    · simp [List.find?, hp]
    · by_cases hpe : p e = true
      · have he : e = d := huniq e (List.mem_cons_self _ _) hpe
        subst he
        simp [List.find?, hpe]
      · have hpe' : p e = false := by simpa using hpe
        simp only [List.find?, hpe']
        exact ih hmem fun x hx => huniq x (List.mem_cons_of_mem _ hx)

theorem mem_of_mem_deleteOne (s : List Doc) (q : Doc → Bool) (d : Doc)
    (h : d ∈ deleteOne s q) : d ∈ s := by
  induction s with
  | nil => cases h
  | cons e rest ih =>
    by_cases hq : q e = true
    · simp only [deleteOne, hq, if_true] at h
      exact List.mem_cons_of_mem _ h
    · have hq' : q e = false := by simpa using hq
      simp only [deleteOne, hq', Bool.false_eq_true, if_false, List.mem_cons] at h
      rcases h with rfl | h
      · exact List.mem_cons_self _ _
      · exact List.mem_cons_of_mem _ (ih h)

theorem mem_deleteOne_of_mem (s : List Doc) (q : Doc → Bool) (d : Doc)
    (hd : d ∈ s) (hq : q d = false) : d ∈ deleteOne s q := by
  induction s with
  | nil => cases hd
  | cons e rest ih =>
    by_cases hqe : q e = true
    · simp only [deleteOne, hqe, if_true]
      rcases List.mem_cons.1 hd with rfl | hmem
      · rw [hq] at hqe; cases hqe
      · exact hmem
    · have hqe' : q e = false := by simpa using hqe
      simp only [deleteOne, hqe', Bool.false_eq_true, if_false, List.mem_cons]
      rcases List.mem_cons.1 hd with rfl | hmem
      · exact Or.inl rfl
      · exact Or.inr (ih hmem)

theorem deleteOne_ids_sublist (s : List Doc) (q : Doc → Bool) :
    ((deleteOne s q).map Doc.id).Sublist (s.map Doc.id) := by
  induction s with
  | nil => simp [deleteOne]
  | cons e rest ih =>
    by_cases hq : q e = true
    · simp only [deleteOne, hq, if_true, List.map_cons]
      exact List.sublist_cons_self _ _
    · have hq' : q e = false := by simpa using hq
      simp only [deleteOne, hq', Bool.false_eq_true, if_false, List.map_cons]
      exact ih.cons₂ _

theorem updateOne_ids (s : List Doc) (q : Doc → Bool) (f : Doc → Doc)
    (hf : ∀ e, (f e).id = e.id) : (updateOne s q f).map Doc.id = s.map Doc.id := by
  induction s with
  | nil => rfl
  | cons e rest ih =>
    by_cases hq : q e = true
    · simp [updateOne, hq, hf]
    · have hq' : q e = false := by simpa using hq
      simp [updateOne, hq', ih]

theorem mem_updateOne_cases (s : List Doc) (q : Doc → Bool) (f : Doc → Doc) (d : Doc)
    (h : d ∈ updateOne s q f) : d ∈ s ∨ ∃ e ∈ s, q e = true ∧ d = f e := by
  induction s with
  | nil => cases h
  | cons e rest ih =>
    by_cases hq : q e = true
    · simp only [updateOne, hq, if_true, List.mem_cons] at h
      rcases h with rfl | h
      · exact Or.inr ⟨e, List.mem_cons_self _ _, hq, rfl⟩
      · exact Or.inl (List.mem_cons_of_mem _ h)
    · have hq' : q e = false := by simpa using hq
      simp only [updateOne, hq', Bool.false_eq_true, if_false, List.mem_cons] at h
      rcases h with rfl | h
      · exact Or.inl (List.mem_cons_self _ _)
      · rcases ih h with h' | ⟨e', he', hqe', rfl⟩
        · exact Or.inl (List.mem_cons_of_mem _ h')
        · exact Or.inr ⟨e', List.mem_cons_of_mem _ he', hqe', rfl⟩

theorem uniq_mem_id_inj (s : List Doc) (huniq : UniqIds s) (a b : Doc)
    (ha : a ∈ s) (hb : b ∈ s) (hid : a.id = b.id) : a = b := by
  induction s with
  | nil => cases ha
  | cons e rest ih =>
    have hnd := huniq
    simp only [UniqIds, List.map_cons, List.nodup_cons] at hnd
    rcases List.mem_cons.1 ha with rfl | hma <;> rcases List.mem_cons.1 hb with h1 | hmb
    · rw [h1]
    · exact absurd (hid ▸ List.mem_map_of_mem Doc.id hmb) hnd.1
    · subst h1
      exact absurd (hid ▸ List.mem_map_of_mem Doc.id hma) hnd.1
    · exact ih hnd.2 hma hmb

theorem updateOne_spec (s : List Doc) (q : Doc → Bool) (f : Doc → Doc)
    (huniq : UniqIds s) (n : Doc) (hn : n ∈ s) (hqn : q n = true)
    (hq : ∀ e ∈ s, q e = true → e.id = n.id) :
    f n ∈ updateOne s q f ∧ ∀ d ∈ updateOne s q f, d.id = n.id → d = f n := by
  induction s with
  | nil => cases hn
  | cons e rest ih =>
    have hnd := huniq
    simp only [UniqIds, List.map_cons, List.nodup_cons] at hnd
    by_cases hqe : q e = true
    · have he : e = n := by
        rcases List.mem_cons.1 hn with rfl | hmem
        · rfl
        · exact absurd (hq e (List.mem_cons_self _ _) hqe ▸ List.mem_map_of_mem Doc.id hmem) hnd.1
      subst he
      simp only [updateOne, hqe, if_true]
      refine ⟨List.mem_cons_self _ _, ?_⟩
      intro d hd hid
      rcases List.mem_cons.1 hd with rfl | hmem
      · rfl
      · exact absurd (hid ▸ List.mem_map_of_mem Doc.id hmem) hnd.1
    · have hqe' : q e = false := by simpa using hqe
      have hne : n ∈ rest := by
        rcases List.mem_cons.1 hn with rfl | hmem
        · rw [hqn] at hqe'; cases hqe'
        · exact hmem
      have ihr := ih hnd.2 hne (fun x hx => hq x (List.mem_cons_of_mem _ hx))
      simp only [updateOne, hqe', Bool.false_eq_true, if_false]
      refine ⟨List.mem_cons_of_mem _ ihr.1, ?_⟩
      intro d hd hid
      rcases List.mem_cons.1 hd with rfl | hmem
      · exact absurd (hid ▸ List.mem_map_of_mem Doc.id hne) hnd.1
      · exact ihr.2 d hmem hid

theorem deleteOne_by_id (s : List Doc) (u : String) (i : Nat) (huniq : UniqIds s) :
    noOwnedDoc u (deleteOne s (fun e => e.userId == u && e.id == i)) i := by
  intro d hd hdu hdi
  induction s with
  | nil => cases hd
  | cons e rest ih =>
    have hnd := huniq
    simp only [UniqIds, List.map_cons, List.nodup_cons] at hnd
    by_cases hq : (e.userId == u && e.id == i) = true
    · simp only [deleteOne, hq, if_true] at hd
      have hei : e.id = i := by
        have := hq
        simp only [Bool.and_eq_true, beq_iff_eq] at this
        exact this.2
      exact hnd.1 (by rw [hei, ← hdi]; exact List.mem_map_of_mem Doc.id hd)
    · have hq' : (e.userId == u && e.id == i) = false := by simpa using hq
      simp only [deleteOne, hq', Bool.false_eq_true, if_false, List.mem_cons] at hd
      rcases hd with rfl | hd
      · simp [hdu, hdi] at hq'
      · exact ih hnd.2 hd

/-- C5: renaming any item to "root" and deleting the item named "root" are
always rejected with BadRequest (400) and leave the store unchanged; the
reserved-name check is the first statement of both handlers, executed before
any store access (the store is returned untouched for every input state). -/
theorem root_protection_rename_delete :
    (∀ u oldName pathOpt s, renameFVItem u oldName "root" pathOpt s =
        (Resp.badRequest "Item cannot be named root!", s)) ∧
    (∀ u pathOpt fuel s, deleteFVItem u pathOpt "root" fuel s =
        (Resp.badRequest "You cannot delete the root folder!", s)) := by
  constructor
  · intro u oldName pathOpt s
    simp [renameFVItem]
  · intro u pathOpt fuel s
    simp [deleteFVItem]

/-- C10: in a state where folder "A" (id 1) lists a dangling child id 99,
listing the folder dereferences the failed child lookup and answers with the
generic Internal error (500), while deleting the same folder succeeds and
skips the missing child — listing lacks the defensive re-read that deletion
performs. -/
theorem listing_dangling_child_internal_error :
    getFVItems "u" (some ["root", "A"]) (some "A")
        [⟨1, "u", "A", none, "folder", 0, [99], ""⟩] =
      (Resp.internalError, [⟨1, "u", "A", none, "folder", 0, [99], ""⟩]) ∧
    deleteFVItem "u" (some ["root"]) "A" 2
        [⟨1, "u", "A", none, "folder", 0, [99], ""⟩] =
      (Resp.okSimple, []) := by
  exact ⟨by decide, by decide⟩

/-- C2 counterexample: with folder "A" (containing note "N") at root, listing
path ["root", "A", "X", "B"] — whose intermediate segment "X" resolves to no
folder — does not return an empty result set: the walk breaks at "X" and the
handler answers 200 with the children of "A", a non-empty files list. -/
theorem deep_missing_segment_listing_not_empty :
    (getFVItems "u" (some ["root", "A", "X", "B"]) (some "B")
        [⟨1, "u", "A", none, "folder", 0, [2], ""⟩,
         ⟨2, "u", "N", some 1, "note", 5, [], ""⟩]).1 =
      Resp.okItems true [] [⟨2, "u", "N", some 1, "note", 5, [], ""⟩] := by
  decide

/-- C3 counterexample: a listing request whose path is the empty array is not
rejected with BadRequest — the JavaScript falsiness check `!path` passes for
an empty array, and the request (target folder "root") succeeds with 200. -/
theorem empty_path_listing_not_rejected :
    getFVItems "u" (some []) (some "root") [] = (Resp.okItems true [] [], []) := by
  decide

/-- C7 counterexample: a successful rename of the note "a" (lastEdited = 5)
to "b" via `renameFVItem` updates only the name: the resulting document still
carries lastEdited = 5, so the rename does not set lastModified to the
current time. -/
theorem rename_does_not_touch_lastEdited :
    renameFVItem "u" "a" "b" (some ["root"]) [⟨1, "u", "a", none, "note", 5, [], ""⟩] =
      (Resp.okSimple, [⟨1, "u", "b", none, "note", 5, [], ""⟩]) := by
  decide

/-- C2 (amended): for a listing request with a target folder other than
"root" whose first path segment after the root marker (`path[1]`) does not
resolve to a root-level folder of the caller, the handler returns 200 with an
empty result set (folders: [], files: []) rather than an error, and performs
no mutation.  (A deeper failing segment instead lists the deepest resolved
folder, see the counterexample.) -/
theorem first_segment_missing_listing_empty (u : String) (p : List String) (f : String)
    (s : List Doc) (hf1 : f ≠ "") (hf2 : f ≠ "root") (seg : String) (hseg : p.get? 1 = some seg)
    (hmiss : ∀ d ∈ s, d.userId = u → d.parentFolder = none → d.type = "folder" → d.name ≠ seg) :
    getFVItems u (some p) (some f) s = (Resp.okItems false [] [], s) := by
  simp only [getFVItems]
  rw [if_neg (by simpa using hf1), if_neg (by simpa using hf2)]
  have hnone : s.find? (fun d => d.userId == u && optNameMatch (p.get? 1) d.name &&
      d.parentFolder == none && d.type == "folder") = none := by
    rw [List.find?_eq_none]
    intro d hd
    rw [hseg]
    simp only [optNameMatch, Bool.and_eq_true, beq_iff_eq, not_and]
    intro h1 h2
    exact hmiss d hd h1.1.1 h1.2 h2 h1.1.2
  rw [hnone]

/-- C2 witness: listing ["root", "Z"] in an empty store (no root folder "Z")
returns 200 with empty lists and an unchanged store. -/
theorem first_segment_missing_listing_empty_witness :
    getFVItems "u" (some ["root", "Z"]) (some "Z") [] = (Resp.okItems false [] [], []) :=
  first_segment_missing_listing_empty "u" ["root", "Z"] "Z" [] (by decide) (by decide) "Z"
    (by decide) (by intro d hd; cases hd)

/-- C3 (amended): only an absent path is caught before the store is touched,
and only by the listing handler: `getFVItems` rejects a missing path with 400
and an unchanged store, while `newFolder` performs no path-presence check at
all — with a missing path (and a name passing the name checks) it throws on
iterating `undefined` and answers the generic Internal error (500).  An empty
path array is rejected by neither handler (see the counterexample). -/
theorem missing_path_checks_amended :
    (∀ u folderOpt s, getFVItems u none folderOpt s =
        (Resp.badRequest "Folder and path are required!", s)) ∧
    (∀ u nm nid now s, nm ≠ "" → nm ≠ "root" →
        newFolder u none nm nid now s = (Resp.internalError, s)) := by
  constructor
  · intro u folderOpt s
    rfl
  · intro u nm nid now s h1 h2
    have hl : (nm.length == 0) = false := by
      rw [beq_eq_false_iff_ne]
      intro hc
      apply h1
      cases nm with
      | mk l =>
        have hL : l = [] := List.length_eq_zero.1 (by simpa [String.length] using hc)
        subst hL
        rfl
    simp [newFolder, hl, h2]

/-- C3 witness: concrete instances of both conjuncts — listing with an absent
path is rejected 400; folder creation with an absent path and the valid name
"A" answers 500. -/
theorem missing_path_checks_amended_witness :
    getFVItems "u" none (some "root") [] = (Resp.badRequest "Folder and path are required!", []) ∧
    newFolder "u" none "A" 1 0 [] = (Resp.internalError, []) :=
  ⟨missing_path_checks_amended.1 "u" (some "root") [],
   missing_path_checks_amended.2 "u" "A" 1 0 [] (by decide) (by decide)⟩

theorem updateOne_note_fields (u t c : String) (now : Nat) (s : List Doc) (huniq : UniqIds s)
    (n : Doc) (hmem : n ∈ s) (hu : n.userId = u) :
    ∀ d ∈ updateOne s (fun d => d.userId == u && d.id == n.id)
        (fun d => { d with fileContent := c, name := t, lastEdited := now }),
      d.id = n.id → d.name = t ∧ d.fileContent = c ∧ d.lastEdited = now := by
  intro d hd hdid
  have hspec := updateOne_spec s (fun d => d.userId == u && d.id == n.id)
    (fun d => { d with fileContent := c, name := t, lastEdited := now }) huniq n hmem
    (by simp [hu]) (by intro e he hqe; exact (by simpa using hqe : e.userId = u ∧ e.id = n.id).2)
  rw [hspec.2 d hd hdid]
  exact ⟨rfl, rfl, rfl⟩

theorem updateOne_rename_fields (u nn : String) (s : List Doc) (huniq : UniqIds s)
    (n : Doc) (hmem : n ∈ s) :
    ∀ d ∈ updateOne s (fun d => d.id == n.id) (fun d => { d with name := nn }),
      d.id = n.id → d.name = nn ∧ d.lastEdited = n.lastEdited ∧ d.fileContent = n.fileContent ∧
        d.type = n.type := by
  intro d hd hdid
  have hspec := updateOne_spec s (fun d => d.id == n.id) (fun d => { d with name := nn })
    huniq n hmem (by simp) (by intro e he hqe; simpa using hqe)
  rw [hspec.2 d hd hdid]
  exact ⟨rfl, rfl, rfl, rfl⟩

/-- C7 (amended): `lastEdited` is set to the current time by every successful
note-content update (`updateNote` sets content, name and lastEdited in one
update), but the standalone rename operation (`renameFVItem`) updates only
the name: on success the renamed document keeps its previous `lastEdited`
(and content and type) unchanged. -/
theorem lastEdited_mutation_semantics :
    (∀ u t ot c p now s s1, UniqIds s →
        updateNote u t ot c p now s = (Resp.okSimple, s1) →
        ∃ n ∈ s, n.userId = u ∧ n.name = ot ∧ n.type = "note" ∧
          ∀ d ∈ s1, d.id = n.id → d.name = t ∧ d.fileContent = c ∧ d.lastEdited = now) ∧
    (∀ u oldN nn p s s1, UniqIds s →
        renameFVItem u oldN nn p s = (Resp.okSimple, s1) →
        ∃ n ∈ s, n.userId = u ∧ n.name = oldN ∧
          ∀ d ∈ s1, d.id = n.id → d.name = nn ∧ d.lastEdited = n.lastEdited ∧
            d.fileContent = n.fileContent ∧ d.type = n.type) := by
  constructor
  · intro u t ot c p now s s1 huniq h
    cases p with
    | none => simp [updateNote] at h
    | some pl =>
      simp only [updateNote] at h
      split at h
      · simp at h
      · split at h
        · simp at h
        · split at h
          · simp at h
          · rename_i pid hres
            split at h
            · simp at h
            · rename_i n heq
              simp only [Prod.mk.injEq, true_and] at h
              subst h
              split at heq
              · split at heq
                · have hmem := List.mem_of_find?_eq_some heq
                  have hpred := List.find?_some heq
                  simp only [Bool.and_eq_true, beq_iff_eq] at hpred
                  exact ⟨n, hmem, hpred.1.1, hpred.1.2, hpred.2,
                    updateOne_note_fields u t c now s huniq n hmem hpred.1.1⟩
                · have hmem := List.mem_of_find?_eq_some heq
                  have hpred := List.find?_some heq
                  simp only [Bool.and_eq_true, beq_iff_eq] at hpred
                  exact ⟨n, hmem, hpred.1.1.1, hpred.1.1.2, hpred.2,
                    updateOne_note_fields u t c now s huniq n hmem hpred.1.1.1⟩
              · have hmem := List.mem_of_find?_eq_some heq
                have hpred := List.find?_some heq
                simp only [Bool.and_eq_true, beq_iff_eq] at hpred
                exact ⟨n, hmem, hpred.1.1.1, hpred.1.1.2, hpred.2,
                  updateOne_note_fields u t c now s huniq n hmem hpred.1.1.1⟩
  · intro u oldN nn p s s1 huniq h
    simp only [renameFVItem] at h
    split at h
    · simp at h
    · cases p with
      | none => simp at h
      | some pl =>
        simp only [] at h
        split at h
        · simp at h
        · rename_i pid hres
          split at h
          · simp at h
          · rename_i item hitem
            split at h
            · simp at h
            · simp only [Prod.mk.injEq, true_and] at h
              subst h
              have hmem := List.mem_of_find?_eq_some hitem
              have hpred := List.find?_some hitem
              simp only [Bool.and_eq_true, beq_iff_eq] at hpred
              exact ⟨item, hmem, hpred.1.1, hpred.1.2,
                updateOne_rename_fields u nn s huniq item hmem⟩

/-- C7 witness: on the one-note store, a successful content update stamps
lastEdited with the call time 7, and a successful rename keeps lastEdited
at the stored value. -/
theorem lastEdited_mutation_semantics_witness :
    (∃ n ∈ ([⟨1, "u", "a", none, "note", 5, [], ""⟩] : List Doc), n.userId = "u" ∧ n.name = "a" ∧
        n.type = "note" ∧ ∀ d ∈ ([⟨1, "u", "b", none, "note", 7, [], "x"⟩] : List Doc),
          d.id = n.id → d.name = "b" ∧ d.fileContent = "x" ∧ d.lastEdited = 7) ∧
    (∃ n ∈ ([⟨1, "u", "a", none, "note", 5, [], ""⟩] : List Doc), n.userId = "u" ∧ n.name = "a" ∧
        ∀ d ∈ ([⟨1, "u", "b", none, "note", 5, [], ""⟩] : List Doc),
          d.id = n.id → d.name = "b" ∧ d.lastEdited = n.lastEdited ∧ d.fileContent = n.fileContent ∧
            d.type = n.type) :=
  ⟨lastEdited_mutation_semantics.1 "u" "b" "a" "x" (some ["root"]) 7
      [⟨1, "u", "a", none, "note", 5, [], ""⟩] [⟨1, "u", "b", none, "note", 7, [], "x"⟩]
      (by simp [UniqIds]) (by decide),
   lastEdited_mutation_semantics.2 "u" "a" "b" (some ["root"])
      [⟨1, "u", "a", none, "note", 5, [], ""⟩] [⟨1, "u", "b", none, "note", 5, [], ""⟩]
      (by simp [UniqIds]) (by decide)⟩

theorem strLen_beq_zero_false (x : String) (h : x ≠ "") : (x.length == 0) = false := by
  rw [beq_eq_false_iff_ne]
  intro hc
  apply h
  cases x with
  | mk l =>
    have hL : l = [] := List.length_eq_zero.1 (by simpa [String.length] using hc)
    subst hL
    rfl

theorem find?_isSome_of_exists (l : List Doc) (p : Doc → Bool) (h : ∃ d ∈ l, p d = true) :
    ∃ w, l.find? p = some w := by
  induction l with
  | nil => obtain ⟨d, hd, _⟩ := h; cases hd
  | cons e rest ih =>
    by_cases hpe : p e = true
    · exact ⟨e, by simp [List.find?, hpe]⟩
    · have hpe' : p e = false := by simpa using hpe
      obtain ⟨d, hd, hpd⟩ := h
      rcases List.mem_cons.1 hd with rfl | hmem
      · rw [hpd] at hpe'; cases hpe'
      · obtain ⟨w, hw⟩ := ih ⟨d, hmem, hpd⟩
        exact ⟨w, by simp [List.find?, hpe', hw]⟩

theorem coreEq_refl (a : Doc) : coreEq a a := ⟨rfl, rfl, rfl, rfl, rfl⟩

theorem coreEq_trans (a b c : Doc) (h1 : coreEq a b) (h2 : coreEq b c) : coreEq a c := by
  obtain ⟨e1, e2, e3, e4, e5⟩ := h1
  obtain ⟨f1, f2, f3, f4, f5⟩ := h2
  exact ⟨e1.trans f1, e2.trans f2, e3.trans f3, e4.trans f4, e5.trans f5⟩

theorem findStable_append (s l : List Doc) : FindStable s (s ++ l) := by
  intro p hp d hd
  refine ⟨d, ?_, coreEq_refl d⟩
  induction s with
  | nil => cases hd
  | cons e rest ih =>
    by_cases hpe : p e = true
    · simp only [List.find?, hpe] at hd
      injection hd with hd
      subst hd
      simp [List.find?, hpe]
    · have hpe' : p e = false := by simpa using hpe
      simp only [List.find?, hpe'] at hd
      simpa [List.find?, hpe'] using ih hd

theorem findStable_updateOne (t : List Doc) (q : Doc → Bool) (g : Doc → Doc)
    (hg : ∀ e, coreEq (g e) e) : FindStable t (updateOne t q g) := by
  intro p hp d hd
  induction t with
  | nil => cases hd
  | cons e rest ih =>
    by_cases hpe : p e = true
    · simp only [List.find?, hpe] at hd
      injection hd with hd
      subst hd
      by_cases hqe : q e = true
      · exact ⟨g e, by simp [updateOne, hqe, List.find?, (hp _ _ (hg e)).trans hpe], hg e⟩
      · have hqe' : q e = false := by simpa using hqe
        exact ⟨e, by simp [updateOne, hqe', List.find?, hpe], coreEq_refl e⟩
    · have hpe' : p e = false := by simpa using hpe
      simp only [List.find?, hpe'] at hd
      by_cases hqe : q e = true
      · have hpge : p (g e) = false := (hp _ _ (hg e)).trans hpe'
        exact ⟨d, by simp [updateOne, hqe, List.find?, hpge, hd], coreEq_refl d⟩
      · have hqe' : q e = false := by simpa using hqe
        obtain ⟨d2, hd2, hcore⟩ := ih hd
        exact ⟨d2, by simp [updateOne, hqe', List.find?, hpe', hd2], hcore⟩

theorem findStable_trans (s t r : List Doc) (h1 : FindStable s t) (h2 : FindStable t r) :
    FindStable s r := by
  intro p hp d hd
  obtain ⟨d2, hd2, hc2⟩ := h1 p hp d hd
  obtain ⟨d3, hd3, hc3⟩ := h2 p hp d2 hd2
  exact ⟨d3, hd3, coreEq_trans _ _ _ hc3 hc2⟩

theorem resolveNC_stable (u : String) (s t : List Doc) (hst : FindStable s t) :
    ∀ segs carry pid, resolveNC u s segs carry = Except.ok pid →
      resolveNC u t segs carry = Except.ok pid := by
  intro segs
  induction segs with
  | nil => intro carry pid h; exact h
  | cons seg rest ih =>
    intro carry pid h
    simp only [resolveNC] at h ⊢
    by_cases hseg : (seg == "root") = true
    · rw [if_pos hseg] at h ⊢
      exact ih none pid h
    · rw [if_neg hseg] at h ⊢
      cases hfind : s.find? (fun d => d.userId == u && d.type == "folder" && d.name == seg &&
          d.parentFolder == carry) with
      | none => rw [hfind] at h; cases h
      | some d =>
        rw [hfind] at h
        obtain ⟨d2, hd2, hcore⟩ := hst _ (by
          intro a b hc
          obtain ⟨e1, e2, e3, e4, e5⟩ := hc
          simp [e1, e2, e3, e4, e5]) d hfind
        rw [hd2]
        show resolveNC u t rest (some d2.id) = Except.ok pid
        rw [hcore.1]
        exact ih (some d.id) pid h

theorem resolveNC_ok_parent (u : String) (s : List Doc) :
    ∀ segs carry pid, (∀ pv, carry = some pv → ∃ d ∈ s, d.userId = u ∧ d.id = pv) →
      resolveNC u s segs carry = Except.ok pid →
      ∀ pv, pid = some pv → ∃ d ∈ s, d.userId = u ∧ d.id = pv := by
  intro segs
  induction segs with
  | nil =>
    intro carry pid hc h pv hp
    injection h with h
    subst h
    exact hc pv hp
  | cons seg rest ih =>
    intro carry pid hc h pv hp
    simp only [resolveNC] at h
    by_cases hseg : (seg == "root") = true
    · rw [if_pos hseg] at h
      exact ih none pid (by intro x hx; cases hx) h pv hp
    · rw [if_neg hseg] at h
      cases hfind : s.find? (fun d => d.userId == u && d.type == "folder" && d.name == seg &&
          d.parentFolder == carry) with
      | none => rw [hfind] at h; cases h
      | some d =>
        rw [hfind] at h
        refine ih (some d.id) pid ?_ h pv hp
        intro x hx
        injection hx with hx
        subst hx
        have hmem := List.mem_of_find?_eq_some hfind
        have hpred := List.find?_some hfind
        simp only [Bool.and_eq_true, beq_iff_eq] at hpred
        exact ⟨d, hmem, hpred.1.1.1, rfl⟩

theorem mem_updateOne_of_mem (s : List Doc) (q : Doc → Bool) (f : Doc → Doc) (d : Doc)
    (hd : d ∈ s) (hq : q d = false) : d ∈ updateOne s q f := by
  induction s with
  | nil => cases hd
  | cons e rest ih =>
    by_cases hqe : q e = true
    · simp only [updateOne, hqe, if_true, List.mem_cons]
      rcases List.mem_cons.1 hd with rfl | hmem
      · rw [hq] at hqe; cases hqe
      · exact Or.inr hmem
    · have hqe' : q e = false := by simpa using hqe
      simp only [updateOne, hqe', Bool.false_eq_true, if_false, List.mem_cons]
      rcases List.mem_cons.1 hd with rfl | hmem
      · exact Or.inl rfl
      · exact Or.inr (ih hmem)

theorem uniqIds_append_fresh (s : List Doc) (nd : Doc) (huniq : UniqIds s)
    (hf : nd.id ∉ s.map Doc.id) : UniqIds (s ++ [nd]) := by
  simp only [UniqIds, List.map_append, List.map_cons, List.map_nil]
  rw [List.nodup_append]
  refine ⟨huniq, List.nodup_singleton _, ?_⟩
  intro a ha hb
  simp only [List.mem_singleton] at hb
  subst hb
  exact hf ha

/-- C6: for every resolvable parent path (nonempty, resolving to `pid`), the
create-note operation succeeds and inserts a new Note named "Untitled" (kind
note, empty content, lastEdited = now) whose parentFolder is the resolved
parent, and — when the parent is not the synthetic root — appends the fresh
id to the resolved parent's children list.  The theorem carries no
hypothesis about existing siblings, so it applies verbatim when a Note named
"Untitled" already exists under the same parent: no sibling-uniqueness check
is performed. -/
theorem newNote_contract (u : String) (p : List String) (pid : Option Nat) (nid now : Nat)
    (s : List Doc) (huniq : UniqIds s) (hne : p ≠ [])
    (hres : resolveNC u s p none = Except.ok pid) (hfresh : nid ∉ s.map Doc.id) :
    (newNote u (some p) nid now s).1 = Resp.okSimple ∧
    (⟨nid, u, "Untitled", pid, "note", now, [], ""⟩ : Doc) ∈ (newNote u (some p) nid now s).2 ∧
    (∀ pv, pid = some pv → ∃ pd ∈ s, pd.id = pv ∧ pd.userId = u ∧
        { pd with children := pd.children ++ [nid] } ∈ (newNote u (some p) nid now s).2) ∧
    (pid = none →
        (newNote u (some p) nid now s).2 = s ++ [⟨nid, u, "Untitled", none, "note", now, [], ""⟩]) := by
  have hpe : p.isEmpty = false := by
    cases p with
    | nil => exact absurd rfl hne
    | cons a l => rfl
  cases pid with
  | none =>
    have h1 : resolveParentDoc u s p none = none := by simp [resolveParentDoc, hpe]
    simp only [newNote, hres, h1, Option.isSome_none, Bool.false_eq_true, if_false]
    refine ⟨trivial, ?_, ?_, fun _ => trivial⟩
    · exact List.mem_append_right _ (List.mem_singleton_self _)
    · intro pv hpv; cases hpv
  | some pv =>
    obtain ⟨pd0, hpd0mem, hpd0u, hpd0id⟩ :=
      resolveNC_ok_parent u s p none (some pv) (by intro x hx; cases hx) hres pv rfl
    obtain ⟨pd, hpd⟩ := find?_isSome_of_exists s (fun d => d.userId == u && d.id == pv)
      ⟨pd0, hpd0mem, by simp [hpd0u, hpd0id]⟩
    have hpdmem := List.mem_of_find?_eq_some hpd
    have hpdpred := List.find?_some hpd
    simp only [Bool.and_eq_true, beq_iff_eq] at hpdpred
    have h1 : resolveParentDoc u s p (some pv) = some pd := by
      simp [resolveParentDoc, hpe, hpd]
    have hnidpv : nid ≠ pv := by
      intro hc
      exact hfresh (hc ▸ hpdpred.2 ▸ List.mem_map_of_mem Doc.id hpdmem)
    have huniq1 : UniqIds (s ++ [(⟨nid, u, "Untitled", some pv, "note", now, [], ""⟩ : Doc)]) :=
      uniqIds_append_fresh s _ huniq hfresh
    simp only [newNote, hres, h1, Option.isSome_some, if_true, hpe, Bool.false_eq_true, if_false]
    refine ⟨trivial, ?_, ?_, ?_⟩
    · apply mem_updateOne_of_mem
      · exact List.mem_append_right _ (List.mem_singleton_self _)
      · simp [hnidpv]
    · intro pv2 hpv2
      injection hpv2 with hpv2
      subst hpv2
      refine ⟨pd, hpdmem, hpdpred.2, hpdpred.1, ?_⟩
      have hspec := updateOne_spec (s ++ [(⟨nid, u, "Untitled", some pv, "note", now, [], ""⟩ : Doc)])
        (fun d => d.userId == u && some d.id == some pv)
        (fun d => { d with children := d.children ++ [nid] }) huniq1 pd
        (List.mem_append_left _ hpdmem) (by simp [hpdpred.1, hpdpred.2])
        (by
          intro e he hqe
          simp only [Bool.and_eq_true, beq_iff_eq, Option.some.injEq] at hqe
          rw [hqe.2, hpdpred.2])
      exact hspec.1
    · intro hc; cases hc

/-- C6 witness: creating a note under ["root", "M"] while a Note "Untitled"
already exists under "M" (id 2) succeeds, inserts the new "Untitled" note
with id 3, and pushes 3 onto M's children. -/
theorem newNote_contract_witness :
    (newNote "u" (some ["root", "M"]) 3 42
        [⟨1, "u", "M", none, "folder", 0, [2], ""⟩,
         ⟨2, "u", "Untitled", some 1, "note", 0, [], ""⟩]).1 = Resp.okSimple ∧
    (⟨3, "u", "Untitled", some 1, "note", 42, [], ""⟩ : Doc) ∈
      (newNote "u" (some ["root", "M"]) 3 42
        [⟨1, "u", "M", none, "folder", 0, [2], ""⟩,
         ⟨2, "u", "Untitled", some 1, "note", 0, [], ""⟩]).2 ∧
    (∀ pv, (some 1 : Option Nat) = some pv → ∃ pd ∈
        ([⟨1, "u", "M", none, "folder", 0, [2], ""⟩,
          ⟨2, "u", "Untitled", some 1, "note", 0, [], ""⟩] : List Doc), pd.id = pv ∧
        pd.userId = "u" ∧ { pd with children := pd.children ++ [3] } ∈
          (newNote "u" (some ["root", "M"]) 3 42
            [⟨1, "u", "M", none, "folder", 0, [2], ""⟩,
             ⟨2, "u", "Untitled", some 1, "note", 0, [], ""⟩]).2) ∧
    ((some 1 : Option Nat) = none →
        (newNote "u" (some ["root", "M"]) 3 42
          [⟨1, "u", "M", none, "folder", 0, [2], ""⟩,
           ⟨2, "u", "Untitled", some 1, "note", 0, [], ""⟩]).2 =
        [⟨1, "u", "M", none, "folder", 0, [2], ""⟩,
         ⟨2, "u", "Untitled", some 1, "note", 0, [], ""⟩] ++
          [⟨3, "u", "Untitled", none, "note", 42, [], ""⟩]) :=
  newNote_contract "u" ["root", "M"] (some 1) 3 42
    [⟨1, "u", "M", none, "folder", 0, [2], ""⟩,
     ⟨2, "u", "Untitled", some 1, "note", 0, [], ""⟩]
    (by simp [UniqIds]) (by decide) (by rfl) (by decide)

theorem newFolder_conflict_aux (u fn : String) (p : List String) (pid : Option Nat)
    (nid now : Nat) (s : List Doc) (hn1 : fn ≠ "") (hn2 : fn ≠ "root")
    (hres : resolveNC u s p none = Except.ok pid)
    (hsib : ∃ d ∈ s, d.userId = u ∧ d.name = fn ∧
        d.parentFolder = (resolveParentDoc u s p pid).map Doc.id ∧ d.type = "folder") :
    newFolder u (some p) fn nid now s = (Resp.conflict "Folder already exists!", s) := by
  obtain ⟨d0, hd0, hp1, hp2, hp3, hp4⟩ := hsib
  obtain ⟨w, hw⟩ := find?_isSome_of_exists s
    (fun d => d.userId == u && d.name == fn &&
      d.parentFolder == (resolveParentDoc u s p pid).map Doc.id && d.type == "folder")
    ⟨d0, hd0, by simp [hp1, hp2, hp3, hp4]⟩
  have h1 := strLen_beq_zero_false fn hn1
  have h2 : (fn == "root") = false := beq_eq_false_iff_ne.2 hn2
  simp only [newFolder, h1, h2, Bool.false_eq_true, if_false, hres, hw]

/-- C4: folder creation enforces sibling uniqueness.  First conjunct: for
every resolvable parent path, if a Folder of the caller with the requested
name already exists under the resolved parent, `newFolder` answers Conflict
(409) and leaves the store unchanged (no insert).  Second conjunct: an
immediately repeated identical create-folder request after a successful one
answers Conflict and leaves the store unchanged. -/
theorem folder_sibling_uniqueness :
    (∀ u fn p pid nid now s, fn ≠ "" → fn ≠ "root" →
        resolveNC u s p none = Except.ok pid →
        (∃ d ∈ s, d.userId = u ∧ d.name = fn ∧
            d.parentFolder = (resolveParentDoc u s p pid).map Doc.id ∧ d.type = "folder") →
        newFolder u (some p) fn nid now s = (Resp.conflict "Folder already exists!", s)) ∧
    (∀ u fn p nid nid2 now now2 s s1, p ≠ [] → nid ∉ s.map Doc.id →
        newFolder u (some p) fn nid now s = (Resp.okSimple, s1) →
        newFolder u (some p) fn nid2 now2 s1 = (Resp.conflict "Folder already exists!", s1)) := by
  refine ⟨fun u fn p pid nid now s hn1 hn2 hres hsib =>
    newFolder_conflict_aux u fn p pid nid now s hn1 hn2 hres hsib, ?_⟩
  intro u fn p nid nid2 now now2 s s1 hne hfresh h
  have hpe : p.isEmpty = false := by
    cases p with
    | nil => exact absurd rfl hne
    | cons a l => rfl
  by_cases hn1 : fn = ""
  · subst hn1
    simp [newFolder] at h
  by_cases hn2 : fn = "root"
  · subst hn2
    simp [newFolder, strLen_beq_zero_false _ hn1] at h
  have h1 := strLen_beq_zero_false fn hn1
  have h2 : (fn == "root") = false := beq_eq_false_iff_ne.2 hn2
  simp only [newFolder, h1, h2, Bool.false_eq_true, if_false] at h
  split at h
  · simp at h
  · rename_i pid hres
    split at h
    · simp at h
    · rename_i hex
      simp only [Prod.mk.injEq, true_and] at h
      cases pid with
      | none =>
        have hrpd : resolveParentDoc u s p none = none := by
          simp [resolveParentDoc, hpe]
        rw [hrpd] at h
        simp only [Option.isSome_none, Bool.false_eq_true, if_false, Option.map_none] at h
        have hstable : FindStable s s1 := h ▸ findStable_append s _
        have hres2 : resolveNC u s1 p none = Except.ok none :=
          resolveNC_stable u s s1 hstable p none none hres
        have hrpd2 : resolveParentDoc u s1 p none = none := by
          simp [resolveParentDoc, hpe]
        refine newFolder_conflict_aux u fn p none nid2 now2 s1 hn1 hn2 hres2
          ⟨⟨nid, u, fn, none, "folder", now, [], ""⟩, ?_, rfl, rfl, ?_, rfl⟩
        · rw [← h]
          exact List.mem_append_right _ (List.mem_singleton_self _)
        · rw [hrpd2]
          rfl
      | some pv =>
        obtain ⟨pd0, hpd0mem, hpd0u, hpd0id⟩ :=
          resolveNC_ok_parent u s p none (some pv) (by intro x hx; cases hx) hres pv rfl
        obtain ⟨pd, hpd⟩ := find?_isSome_of_exists s (fun d => d.userId == u && d.id == pv)
          ⟨pd0, hpd0mem, by simp [hpd0u, hpd0id]⟩
        have hpdpred := List.find?_some hpd
        simp only [Bool.and_eq_true, beq_iff_eq] at hpdpred
        have hpdmem := List.mem_of_find?_eq_some hpd
        have hrpd : resolveParentDoc u s p (some pv) = some pd := by
          simp [resolveParentDoc, hpe, hpd]
        rw [hrpd] at h
        simp only [Option.isSome_some, if_true, Option.map_some] at h
        have hnidne : nid ≠ pd.id := by
          intro hc
          exact hfresh (hc ▸ List.mem_map_of_mem Doc.id hpdmem)
        have hstable : FindStable s s1 := by
          rw [← h]
          exact findStable_trans _ _ _ (findStable_append s _)
            (findStable_updateOne _ _ _ (fun e => ⟨rfl, rfl, rfl, rfl, rfl⟩))
        have hres2 : resolveNC u s1 p none = Except.ok (some pv) :=
          resolveNC_stable u s s1 hstable p none (some pv) hres
        obtain ⟨pd2, hpd2, hcore⟩ := hstable (fun d => d.userId == u && d.id == pv)
          (by
            intro a b hc
            obtain ⟨e1, e2, e3, e4, e5⟩ := hc
            simp [e1, e2]) pd hpd
        have hrpd2 : resolveParentDoc u s1 p (some pv) = some pd2 := by
          simp [resolveParentDoc, hpe, hpd2]
        refine newFolder_conflict_aux u fn p (some pv) nid2 now2 s1 hn1 hn2 hres2
          ⟨⟨nid, u, fn, some pd.id, "folder", now, [], ""⟩, ?_, rfl, rfl, ?_, rfl⟩
        · rw [← h]
          apply mem_updateOne_of_mem
          · exact List.mem_append_right _ (List.mem_singleton_self _)
          · simp [hnidne]
        · rw [hrpd2]
          show some pd.id = some pd2.id
          rw [hcore.1]

/-- C4 witness: with folder "F" already at root, creating "F" again answers
Conflict with the store unchanged (first conjunct instantiated); and after a
successful creation of "F" in the empty store, the identical repeated
request answers Conflict with no insert (second conjunct instantiated). -/
theorem folder_sibling_uniqueness_witness :
    newFolder "u" (some ["root"]) "F" 5 12 [⟨1, "u", "F", none, "folder", 10, [], ""⟩] =
      (Resp.conflict "Folder already exists!", [⟨1, "u", "F", none, "folder", 10, [], ""⟩]) ∧
    newFolder "u" (some ["root"]) "F" 2 11 [⟨1, "u", "F", none, "folder", 10, [], ""⟩] =
      (Resp.conflict "Folder already exists!", [⟨1, "u", "F", none, "folder", 10, [], ""⟩]) :=
  ⟨folder_sibling_uniqueness.1 "u" "F" ["root"] none 5 12
      [⟨1, "u", "F", none, "folder", 10, [], ""⟩] (by decide) (by decide) (by rfl)
      ⟨⟨1, "u", "F", none, "folder", 10, [], ""⟩, by decide, rfl, rfl, by rfl, rfl⟩,
   folder_sibling_uniqueness.2 "u" "F" ["root"] 1 2 10 11 []
      [⟨1, "u", "F", none, "folder", 10, [], ""⟩] (by decide) (by decide) (by rfl)⟩

theorem docShr_refl (a : Doc) : DocShr a a :=
  ⟨rfl, rfl, rfl, rfl, rfl, rfl, rfl, List.Sublist.refl _⟩

theorem docShr_trans (a b c : Doc) (h1 : DocShr a b) (h2 : DocShr b c) : DocShr a c := by
  obtain ⟨e1, e2, e3, e4, e5, e6, e7, e8⟩ := h1
  obtain ⟨f1, f2, f3, f4, f5, f6, f7, f8⟩ := h2
  exact ⟨e1.trans f1, e2.trans f2, e3.trans f3, e4.trans f4, e5.trans f5, e6.trans f6,
    e7.trans f7, e8.trans f8⟩

theorem storeSub_refl (t : List Doc) : StoreSub t t :=
  ⟨List.Sublist.refl _, fun a ha => ⟨a, ha, docShr_refl a⟩⟩

theorem storeSub_trans (r m t : List Doc) (h1 : StoreSub r m) (h2 : StoreSub m t) :
    StoreSub r t := by
  refine ⟨h1.1.trans h2.1, fun a ha => ?_⟩
  obtain ⟨b, hb, hab⟩ := h1.2 a ha
  obtain ⟨c, hc, hbc⟩ := h2.2 b hb
  exact ⟨c, hc, docShr_trans a b c hab hbc⟩

theorem storeSub_deleteOne (t : List Doc) (q : Doc → Bool) : StoreSub (deleteOne t q) t :=
  ⟨deleteOne_ids_sublist t q, fun a ha => ⟨a, mem_of_mem_deleteOne t q a ha, docShr_refl a⟩⟩

theorem storeSub_updateOne (t : List Doc) (q : Doc → Bool) (f : Doc → Doc)
    (hf : ∀ e, DocShr (f e) e) : StoreSub (updateOne t q f) t := by
  refine ⟨?_, fun a ha => ?_⟩
  · rw [updateOne_ids t q f (fun e => (hf e).1)]
  · rcases mem_updateOne_cases t q f a ha with h | ⟨e, he, _, rfl⟩
    · exact ⟨a, h, docShr_refl a⟩
    · exact ⟨e, he, hf e⟩

theorem delChildren_sub (u : String) (dfrF : List Doc → Nat → List Doc)
    (hsub : ∀ t c, StoreSub (dfrF t c) t) :
    ∀ cs t, StoreSub (delChildren dfrF u t cs) t := by
  intro cs
  induction cs with
  | nil => intro t; exact storeSub_refl t
  | cons c rest ih =>
    intro t
    show StoreSub (delChildren dfrF u _ rest) t
    cases hfind : t.find? (fun d => d.userId == u && d.id == c) with
    | none =>
      simp only [delChildren, hfind]
      exact ih t
    | some child =>
      simp only [delChildren, hfind]
      by_cases hty : (child.type == "folder") = true
      · rw [if_pos hty]
        exact storeSub_trans _ _ _ (ih _) (hsub t c)
      · rw [if_neg hty]
        exact storeSub_trans _ _ _ (ih _) (storeSub_deleteOne t _)

theorem dfr_sub (u : String) :
    ∀ fuel t c, StoreSub (deleteFolderRecursively u fuel t c) t := by
  intro fuel
  induction fuel with
  | zero => intro t c; exact storeSub_refl t
  | succ fuel ih =>
    intro t c
    cases hfind : t.find? (fun d => d.userId == u && d.id == c) with
    | none => simp only [deleteFolderRecursively, hfind]; exact storeSub_refl t
    | some folder =>
      simp only [deleteFolderRecursively, hfind]
      have h1 : StoreSub (delChildren (fun t2 c2 => deleteFolderRecursively u fuel t2 c2) u t
          folder.children) t :=
        delChildren_sub u _ (fun t2 c2 => ih t2 c2) folder.children t
      cases hpf : folder.parentFolder with
      | none =>
        simp only [hpf]
        exact storeSub_trans _ _ _ (storeSub_deleteOne _ _) h1
      | some pid =>
        simp only [hpf]
        refine storeSub_trans _ _ _ (storeSub_deleteOne _ _) (storeSub_trans _ _ _ ?_ h1)
        exact storeSub_updateOne _ _ _ (fun e =>
          ⟨rfl, rfl, rfl, rfl, rfl, rfl, rfl, List.filter_sublist _⟩)

theorem noOwned_sub (u : String) (r t : List Doc) (hsub : StoreSub r t) (x : Nat)
    (h : noOwnedDoc u t x) : noOwnedDoc u r x := by
  intro d hd hdu hdi
  obtain ⟨b, hb, hshr⟩ := hsub.2 d hd
  exact h b hb (hshr.2.1 ▸ hdu) (hshr.1 ▸ hdi)

theorem mem_map_id_of_mem (t : List Doc) (d : Doc) (hd : d ∈ t) : d.id ∈ t.map Doc.id :=
  List.mem_map_of_mem Doc.id hd

theorem invW_sub (u : String) (rank : Nat → Nat) (r t : List Doc) (hinv : InvW u rank t)
    (hsub : StoreSub r t) : InvW u rank r := by
  refine ⟨hinv.uniq.sublist hsub.1, ?_, ?_, ?_, ?_⟩
  · intro d hd hdu c hc
    obtain ⟨b, hb, hshr⟩ := hsub.2 d hd
    have hcb : c ∈ b.children := hshr.2.2.2.2.2.2.2.subset hc
    rcases hinv.coh b hb (hshr.2.1 ▸ hdu) c hcb with hdang | ⟨e, he, hei, heu, hep⟩
    · refine Or.inl ?_
      intro e2 he2
      obtain ⟨b2, hb2, hshr2⟩ := hsub.2 e2 he2
      exact hshr2.1 ▸ hdang b2 hb2
    · by_cases hex : ∃ e2 ∈ r, e2.id = c
      · obtain ⟨e2, he2, hei2⟩ := hex
        obtain ⟨b2, hb2, hshr2⟩ := hsub.2 e2 he2
        have hb2e : b2 = e := uniq_mem_id_inj t hinv.uniq b2 e hb2 he ((hshr2.1.symm.trans hei2).trans hei.symm)
        refine Or.inr ⟨e2, he2, hei2, ?_, ?_⟩
        · rw [hshr2.2.1, hb2e, heu]
        · rw [hshr2.2.2.2.1, hb2e, hep, hshr.1]
      · refine Or.inl ?_
        intro e2 he2 hc2
        exact hex ⟨e2, he2, hc2⟩
  · intro d hd hdu c hc
    obtain ⟨b, hb, hshr⟩ := hsub.2 d hd
    have := hinv.rankOK b hb (hshr.2.1 ▸ hdu) c (hshr.2.2.2.2.2.2.2.subset hc)
    rw [hshr.1]
    exact this
  · intro d hd hdu hty
    obtain ⟨b, hb, hshr⟩ := hsub.2 d hd
    have hb0 := hinv.noteNoKids b hb (hshr.2.1 ▸ hdu) (hshr.2.2.2.2.1 ▸ hty)
    have := hshr.2.2.2.2.2.2.2
    rw [hb0] at this
    exact List.sublist_nil.1 this
  · intro d hd hdu
    obtain ⟨b, hb, hshr⟩ := hsub.2 d hd
    exact (hinv.kidsNodup b hb (hshr.2.1 ▸ hdu)).sublist hshr.2.2.2.2.2.2.2

theorem desc_prepend (u : String) (s : List Doc) (d : Doc) (a y x : Nat) (hd : d ∈ s)
    (hu : d.userId = u) (hid : d.id = a) (hy : y ∈ d.children) (h : Desc u s y x) :
    Desc u s a x := by
  induction h with
  | refl => exact Desc.snoc (Desc.refl a) d hd hu hid hy
  | @snoc z2 x2 hay d2 hd2 hu2 hid2 hx2 ih => exact Desc.snoc ih d2 hd2 hu2 hid2 hx2

theorem desc_trans (u : String) (s : List Doc) (a b x : Nat) (h1 : Desc u s a b)
    (h2 : Desc u s b x) : Desc u s a x := by
  induction h2 with
  | refl => exact h1
  | @snoc y2 x2 hby d hd hu hid hx ih => exact Desc.snoc ih d hd hu hid hx

theorem desc_mono_sub (u : String) (r t : List Doc) (hsub : StoreSub r t) (a x : Nat)
    (h : Desc u r a x) : Desc u t a x := by
  induction h with
  | refl => exact Desc.refl _
  | @snoc y2 x2 hay d hd hu hid hx ih =>
    obtain ⟨b, hb, hshr⟩ := hsub.2 d hd
    exact Desc.snoc ih b hb (hshr.2.1 ▸ hu) (hshr.1 ▸ hid) (hshr.2.2.2.2.2.2.2.subset hx)

theorem desc_head_cases (u : String) (s : List Doc) (a x : Nat) (h : Desc u s a x) :
    a = x ∨ ∃ d ∈ s, d.userId = u ∧ d.id = a ∧ ∃ c ∈ d.children, Desc u s c x := by
  induction h with
  | refl => exact Or.inl rfl
  | @snoc y2 x2 hay d hd hu hid hx ih =>
    rcases ih with rfl | ⟨d0, hd0, hu0, hid0, c, hc, hcx⟩
    · exact Or.inr ⟨d, hd, hu, hid, x2, hx, Desc.refl x2⟩
    · exact Or.inr ⟨d0, hd0, hu0, hid0, c, hc, Desc.snoc hcx d hd hu hid hx⟩

theorem desc_rank (u : String) (rank : Nat → Nat) (s : List Doc)
    (hrank : ∀ d ∈ s, d.userId = u → ∀ c ∈ d.children, rank c < rank d.id) (a x : Nat)
    (h : Desc u s a x) : x = a ∨ rank x < rank a := by
  induction h with
  | refl => exact Or.inl rfl
  | @snoc y2 x2 hay d hd hu hid hx ih =>
    have hlt : rank x2 < rank d.id := hrank d hd hu x2 hx
    rw [hid] at hlt
    rcases ih with rfl | hy
    · exact Or.inr hlt
    · exact Or.inr (hlt.trans hy)

theorem find?_user_id_none (u : String) (s : List Doc) (c : Nat)
    (h : s.find? (fun d => d.userId == u && d.id == c) = none) : noOwnedDoc u s c := by
  intro d hd hdu hdi
  have := List.find?_eq_none.1 h d hd
  simp [hdu, hdi] at this

theorem desc_inter (u : String) (rank : Nat → Nat) (t : List Doc) (hinv : InvW u rank t)
    (a x : Nat) (h1 : Desc u t a x) :
    ∀ b, Desc u t b x → (∃ e ∈ t, e.userId = u ∧ e.id = x) → Desc u t a b ∨ Desc u t b a := by
  induction h1 with
  | refl =>
    intro b hb _
    exact Or.inr hb
  | @snoc y2 x2 hay d hd hu hid hx ih =>
    intro b hb hex
    cases hb with
    | refl => exact Or.inl (Desc.snoc hay d hd hu hid hx)
    | @snoc z2 x3 hby d2 hd2 hu2 hid2 hx2 =>
      obtain ⟨e, he, heu, hei⟩ := hex
      rcases hinv.coh d hd hu _ hx with hdang | ⟨e1, he1, hei1, heu1, hep1⟩
      · exact absurd hei (hdang e he)
      rcases hinv.coh d2 hd2 hu2 _ hx2 with hdang | ⟨e2, he2, hei2, heu2, hep2⟩
      · exact absurd hei (hdang e he)
      have he12 : e1 = e2 := uniq_mem_id_inj t hinv.uniq e1 e2 he1 he2 (hei1.trans hei2.symm)
      have hq : (some d.id : Option Nat) = some d2.id := by rw [← hep1, he12, hep2]
      have hdd2 : d.id = d2.id := Option.some_injective _ hq
      have hby2 : Desc u t b y2 := by
        rw [← hid2, ← hdd2, hid] at hby
        exact hby
      exact ih b hby2 ⟨d, hd, hu, hid⟩

theorem desc_sibling_reach_absurd (u : String) (rank : Nat → Nat) (t : List Doc)
    (hinv : InvW u rank t) (F : Doc) (hF : F ∈ t) (hFu : F.userId = u) (a b : Nat)
    (ha : a ∈ F.children) (hb : b ∈ F.children) (hne : a ≠ b)
    (hbdoc : ∃ e ∈ t, e.userId = u ∧ e.id = b) (hab : Desc u t a b) : False := by
  cases hab with
  | refl => exact hne rfl
  | @snoc y2 x2 hay d hd hu hid hx =>
    obtain ⟨e, he, heu, hei⟩ := hbdoc
    rcases hinv.coh d hd hu _ hx with hdang | ⟨e1, he1, hei1, heu1, hep1⟩
    · exact absurd hei (hdang e he)
    rcases hinv.coh F hF hFu _ hb with hdang | ⟨e2, he2, hei2, heu2, hep2⟩
    · exact absurd hei (hdang e he)
    have he12 : e1 = e2 := uniq_mem_id_inj t hinv.uniq e1 e2 he1 he2 (hei1.trans hei2.symm)
    have hq : (some d.id : Option Nat) = some F.id := by rw [← hep1, he12, hep2]
    have hdF : d.id = F.id := Option.some_injective _ hq
    have haF : Desc u t a F.id := by
      rw [← hid, hdF] at hay
      exact hay
    have hra : rank a < rank F.id := hinv.rankOK F hF hFu a ha
    rcases desc_rank u rank t hinv.rankOK a F.id haF with hq | hq
    · rw [hq] at hra; exact absurd hra (lt_irrefl _)
    · exact absurd (hq.trans hra) (lt_irrefl _)

theorem sibling_spine_disjoint (u : String) (rank : Nat → Nat) (t : List Doc)
    (hinv : InvW u rank t) (F : Doc) (hF : F ∈ t) (hFu : F.userId = u) (ch ch0 : Nat)
    (hch : ch ∈ F.children) (hch0 : ch0 ∈ F.children) (hne : ch ≠ ch0)
    (hch0doc : ∃ e ∈ t, e.userId = u ∧ e.id = ch0) (y : Nat)
    (hydoc : ∃ e ∈ t, e.userId = u ∧ e.id = y) (h1 : Desc u t ch y) (h2 : Desc u t ch0 y) :
    False := by
  have hchdoc : ∃ e ∈ t, e.userId = u ∧ e.id = ch := by
    rcases desc_head_cases u t ch y h1 with rfl | ⟨d, hd, hu, hid, _⟩
    · exact hydoc
    · exact ⟨d, hd, hu, hid⟩
  rcases desc_inter u rank t hinv ch y h1 ch0 h2 hydoc with hcc | hcc
  · exact desc_sibling_reach_absurd u rank t hinv F hF hFu ch ch0 hch hch0 hne hch0doc hcc
  · exact desc_sibling_reach_absurd u rank t hinv F hF hFu ch0 ch hch0 hch (Ne.symm hne)
      hchdoc hcc

theorem delChildren_frame (u : String) (rank : Nat → Nat) (dfrF : List Doc → Nat → List Doc)
    (hsub : ∀ t c, StoreSub (dfrF t c) t)
    (hframe : ∀ t c, InvW u rank t → ∀ d ∈ t, ¬ Desc u t c d.id →
        (d ∈ dfrF t c ∨ ((∃ f ∈ t, f.userId = u ∧ f.id = c ∧ f.parentFolder = some d.id) ∧
          { d with children := d.children.filter (fun z => z != c) } ∈ dfrF t c))) :
    ∀ cs t, InvW u rank t → ∀ d ∈ t, (∀ ch ∈ cs, ¬ Desc u t ch d.id) →
      (∀ ch ∈ cs, ¬ ∃ f ∈ t, f.userId = u ∧ f.id = ch ∧ f.parentFolder = some d.id) →
      d ∈ delChildren dfrF u t cs := by
  intro cs
  induction cs with
  | nil =>
    intro t _ d hd _ _
    exact hd
  | cons c rest ih =>
    intro t hinv d hd hdesc hpull
    show d ∈ delChildren dfrF u _ rest
    cases hfind : t.find? (fun e => e.userId == u && e.id == c) with
    | none =>
      simp only [delChildren, hfind]
      exact ih t hinv d hd (fun ch hch => hdesc ch (List.mem_cons_of_mem _ hch))
        (fun ch hch => hpull ch (List.mem_cons_of_mem _ hch))
    | some child =>
      simp only [delChildren, hfind]
      have hdc : d.id ≠ c := by
        intro hc
        exact hdesc c (List.mem_cons_self _ _) (by rw [hc]; exact Desc.refl c)
      by_cases hty : (child.type == "folder") = true
      · rw [if_pos hty]
        have hstep : d ∈ dfrF t c := by
          rcases hframe t c hinv d hd (hdesc c (List.mem_cons_self _ _)) with h | ⟨hp, _⟩
          · exact h
          · exact absurd hp (hpull c (List.mem_cons_self _ _))
        have hsub2 : StoreSub (dfrF t c) t := hsub t c
        refine ih (dfrF t c) (invW_sub u rank _ t hinv hsub2) d hstep ?_ ?_
        · intro ch hch hDesc
          exact hdesc ch (List.mem_cons_of_mem _ hch) (desc_mono_sub u _ t hsub2 ch d.id hDesc)
        · intro ch hch ⟨f, hf, hfu, hfi, hfp⟩
          obtain ⟨b, hb, hshr⟩ := hsub2.2 f hf
          exact hpull ch (List.mem_cons_of_mem _ hch)
            ⟨b, hb, hshr.2.1 ▸ hfu, hshr.1 ▸ hfi, hshr.2.2.2.1 ▸ hfp⟩
      · rw [if_neg hty]
        have hstep : d ∈ deleteOne t (fun e => e.userId == u && e.id == c) :=
          mem_deleteOne_of_mem t _ d hd (by simp [hdc])
        have hsub2 : StoreSub (deleteOne t (fun e => e.userId == u && e.id == c)) t :=
          storeSub_deleteOne t _
        refine ih _ (invW_sub u rank _ t hinv hsub2) d hstep ?_ ?_
        · intro ch hch hDesc
          exact hdesc ch (List.mem_cons_of_mem _ hch) (desc_mono_sub u _ t hsub2 ch d.id hDesc)
        · intro ch hch ⟨f, hf, hfu, hfi, hfp⟩
          obtain ⟨b, hb, hshr⟩ := hsub2.2 f hf
          exact hpull ch (List.mem_cons_of_mem _ hch)
            ⟨b, hb, hshr.2.1 ▸ hfu, hshr.1 ▸ hfi, hshr.2.2.2.1 ▸ hfp⟩

theorem dfr_frame (u : String) (rank : Nat → Nat) :
    ∀ fuel t c, InvW u rank t → ∀ d ∈ t, ¬ Desc u t c d.id →
      (d ∈ deleteFolderRecursively u fuel t c ∨
       ((∃ f ∈ t, f.userId = u ∧ f.id = c ∧ f.parentFolder = some d.id) ∧
        { d with children := d.children.filter (fun z => z != c) } ∈
          deleteFolderRecursively u fuel t c)) := by
  intro fuel
  induction fuel with
  | zero =>
    intro t c _ d hd _
    exact Or.inl hd
  | succ fuel ih =>
    intro t c hinv d hd hdesc
    cases hfind : t.find? (fun e => e.userId == u && e.id == c) with
    | none =>
      simp only [deleteFolderRecursively, hfind]
      exact Or.inl hd
    | some folder =>
      simp only [deleteFolderRecursively, hfind]
      have hfolderp := List.find?_some hfind
      simp only [Bool.and_eq_true, beq_iff_eq] at hfolderp
      have hfoldermem := List.mem_of_find?_eq_some hfind
      have hdc : d.id ≠ c := by
        intro hc
        exact hdesc (by rw [hc]; exact Desc.refl c)
      have hd1 : d ∈ delChildren (fun t2 c2 => deleteFolderRecursively u fuel t2 c2) u t
          folder.children := by
        apply delChildren_frame u rank _ (fun t2 c2 => dfr_sub u fuel t2 c2) ih
          folder.children t hinv d hd
        · intro ch hch hDesc
          exact hdesc (desc_prepend u t folder c ch d.id hfoldermem hfolderp.1 hfolderp.2 hch
            hDesc)
        · intro ch hch ⟨f, hf, hfu, hfi, hfp⟩
          rcases hinv.coh folder hfoldermem hfolderp.1 ch hch with hdang | ⟨e, he, hei, heu, hep⟩
          · exact hdang f hf hfi
          · have hef : e = f := uniq_mem_id_inj t hinv.uniq e f he hf (hei.trans hfi.symm)
            have : (some folder.id : Option Nat) = some d.id := by rw [← hep, hef, hfp]
            have hfd : folder.id = d.id := Option.some_injective _ this
            exact hdc (hfd.symm.trans hfolderp.2)
      have hinv1 : InvW u rank (delChildren (fun t2 c2 => deleteFolderRecursively u fuel t2 c2)
          u t folder.children) :=
        invW_sub u rank _ t hinv
          (delChildren_sub u _ (fun t2 c2 => dfr_sub u fuel t2 c2) folder.children t)
      cases hpf : folder.parentFolder with
      | none =>
        simp only []
        exact Or.inl (mem_deleteOne_of_mem _ _ d hd1 (by simp [hdc]))
      | some pid =>
        simp only []
        by_cases hdp : (d.userId == u && d.id == pid) = true
        · have hdp2 : d.userId = u ∧ d.id = pid := by simpa using hdp
          right
          constructor
          · exact ⟨folder, hfoldermem, hfolderp.1, hfolderp.2, by rw [hpf, hdp2.2]⟩
          · have hspec := updateOne_spec _ (fun e => e.userId == u && e.id == pid)
              (fun e => { e with children := e.children.filter (fun z => z != c) })
              hinv1.uniq d hd1 hdp
              (by
                intro e he hqe
                have : e.id = pid := by simpa using (by simpa using hqe : e.userId = u ∧ e.id = pid).2
                rw [this, hdp2.2])
            exact mem_deleteOne_of_mem _ _ _ hspec.1 (by simp [hdc])
        · left
          refine mem_deleteOne_of_mem _ _ d ?_ (by simp [hdc])
          exact mem_updateOne_of_mem _ _ _ d hd1 (by simpa using hdp)

theorem desc_step_transfer (u : String) (t t2 : List Doc) (ch ch0 : Nat)
    (hspine : ∀ d ∈ t, d.userId = u → Desc u t ch d.id → ¬ Desc u t ch0 d.id)
    (hne0 : ∀ z, Desc u t ch z → z ≠ ch0)
    (hframe : ∀ d ∈ t, ¬ Desc u t ch0 d.id → ∃ d2 ∈ t2, d2.id = d.id ∧ d2.userId = d.userId ∧
        ∀ z ∈ d.children, z ≠ ch0 → z ∈ d2.children) :
    ∀ x, Desc u t ch x → Desc u t2 ch x := by
  intro x h
  induction h with
  | refl => exact Desc.refl ch
  | @snoc y2 x2 hay d hd hu hid hx ih =>
    have hdd : Desc u t ch d.id := by rw [hid]; exact hay
    obtain ⟨d2, hd2, hi2, hu2, hc2⟩ := hframe d hd (hspine d hd hu hdd)
    refine Desc.snoc ih d2 hd2 (hu2.trans hu) (hi2.trans hid) ?_
    exact hc2 x2 hx (hne0 x2 (Desc.snoc hay d hd hu hid hx))

theorem delChildren_complete (u : String) (rank : Nat → Nat) (B : Nat)
    (dfrF : List Doc → Nat → List Doc)
    (hsub : ∀ t c, StoreSub (dfrF t c) t)
    (hframe : ∀ t c, InvW u rank t → ∀ d ∈ t, ¬ Desc u t c d.id →
        (d ∈ dfrF t c ∨ ((∃ f ∈ t, f.userId = u ∧ f.id = c ∧ f.parentFolder = some d.id) ∧
          { d with children := d.children.filter (fun z => z != c) } ∈ dfrF t c)))
    (hcomp : ∀ t c, InvW u rank t → rank c < B → ∀ x, Desc u t c x →
        noOwnedDoc u (dfrF t c) x) :
    ∀ cs t F, InvW u rank t → F ∈ t → F.userId = u → (∀ ch ∈ cs, ch ∈ F.children) →
      cs.Nodup → (∀ ch ∈ cs, rank ch < B) →
      ∀ ch ∈ cs, ∀ x, Desc u t ch x → noOwnedDoc u (delChildren dfrF u t cs) x := by
  intro cs
  induction cs with
  | nil =>
    intro t F _ _ _ _ _ _ ch hch
    cases hch
  | cons c rest ih =>
    intro t F hinv hF hFu hsubs hnodup hranks ch hch x hx
    have hFnotsub : ¬ Desc u t c F.id := by
      intro hq
      have hrc : rank c < rank F.id := hinv.rankOK F hF hFu c (hsubs c (List.mem_cons_self _ _))
      rcases desc_rank u rank t hinv.rankOK c F.id hq with he | hlt
      · rw [he] at hrc; exact absurd hrc (lt_irrefl _)
      · exact absurd (hlt.trans hrc) (lt_irrefl _)
    show noOwnedDoc u (delChildren dfrF u _ rest) x
    cases hfind : t.find? (fun e => e.userId == u && e.id == c) with
    | none =>
      simp only [delChildren, hfind]
      rcases List.mem_cons.1 hch with rfl | hchr
      · have hnod : noOwnedDoc u t ch := find?_user_id_none u t ch hfind
        have hxc : x = ch := by
          rcases desc_head_cases u t ch x hx with h | ⟨d, hd, hu, hid, _⟩
          · exact h.symm
          · exact absurd hid (hnod d hd hu)
        subst hxc
        exact noOwned_sub u _ t (delChildren_sub u dfrF hsub rest t) x hnod
      · exact ih t F hinv hF hFu (fun z hz => hsubs z (List.mem_cons_of_mem _ hz))
          (List.Nodup.of_cons hnodup) (fun z hz => hranks z (List.mem_cons_of_mem _ hz))
          ch hchr x hx
    | some child =>
      have hchildp := List.find?_some hfind
      simp only [Bool.and_eq_true, beq_iff_eq] at hchildp
      have hchildmem := List.mem_of_find?_eq_some hfind
      simp only [delChildren, hfind]
      by_cases hty : (child.type == "folder") = true
      · rw [if_pos hty]
        rcases List.mem_cons.1 hch with rfl | hchr
        · have h2 := hcomp t ch hinv (hranks ch (List.mem_cons_self _ _)) x hx
          exact noOwned_sub u _ _ (delChildren_sub u dfrF hsub rest (dfrF t ch)) x h2
        · have hchne : ch ≠ c := by
            intro h
            subst h
            exact (List.nodup_cons.1 hnodup).1 hchr
          have hchmemF : ch ∈ F.children := hsubs ch (List.mem_cons_of_mem _ hchr)
          have hcmemF : c ∈ F.children := hsubs c (List.mem_cons_self _ _)
          have hcdoc : ∃ e ∈ t, e.userId = u ∧ e.id = c := ⟨child, hchildmem, hchildp.1, hchildp.2⟩
          have htrans : Desc u (dfrF t c) ch x := by
            refine desc_step_transfer u t (dfrF t c) ch c ?_ ?_ ?_ x hx
            · intro d hd hu hdd hd0
              exact sibling_spine_disjoint u rank t hinv F hF hFu ch c hchmemF hcmemF hchne
                hcdoc d.id ⟨d, hd, hu, rfl⟩ hdd hd0
            · intro z hz hzc
              subst hzc
              exact sibling_spine_disjoint u rank t hinv F hF hFu ch z hchmemF hcmemF hchne
                hcdoc z hcdoc hz (Desc.refl z)
            · intro d hd hnd
              rcases hframe t c hinv d hd hnd with h | ⟨_, hmem⟩
              · exact ⟨d, h, rfl, rfl, fun z hz _ => hz⟩
              · refine ⟨_, hmem, rfl, rfl, ?_⟩
                intro z hz hzne
                exact List.mem_filter.2 ⟨hz, bne_iff_ne.mpr hzne⟩
          have hinv2 : InvW u rank (dfrF t c) := invW_sub u rank _ t hinv (hsub t c)
          rcases hframe t c hinv F hF hFnotsub with hF2 | ⟨_, hF2⟩
          · exact ih (dfrF t c) F hinv2 hF2 hFu
              (fun z hz => hsubs z (List.mem_cons_of_mem _ hz)) (List.Nodup.of_cons hnodup)
              (fun z hz => hranks z (List.mem_cons_of_mem _ hz)) ch hchr x htrans
          · refine ih (dfrF t c) _ hinv2 hF2 hFu ?_ (List.Nodup.of_cons hnodup)
              (fun z hz => hranks z (List.mem_cons_of_mem _ hz)) ch hchr x htrans
            intro z hz
            have hzF : z ∈ F.children := hsubs z (List.mem_cons_of_mem _ hz)
            have hzc : z ≠ c := by
              intro h
              subst h
              exact (List.nodup_cons.1 hnodup).1 hz
            show z ∈ F.children.filter (fun w => w != c)
            exact List.mem_filter.2 ⟨hzF, bne_iff_ne.mpr hzc⟩
      · rw [if_neg hty]
        have hsubDel : StoreSub (deleteOne t (fun e => e.userId == u && e.id == c)) t :=
          storeSub_deleteOne t _
        rcases List.mem_cons.1 hch with rfl | hchr
        · rcases desc_head_cases u t ch x hx with hxeq | ⟨d, hd, hu, hid, c2, hc2, _⟩
          · subst hxeq
            have hdel : noOwnedDoc u (deleteOne t (fun e => e.userId == u && e.id == ch)) ch :=
              deleteOne_by_id t u ch hinv.uniq
            exact noOwned_sub u _ _ (delChildren_sub u dfrF hsub rest _) ch hdel
          · have hdchild : d = child := uniq_mem_id_inj t hinv.uniq d child hd hchildmem
              (hid.trans hchildp.2.symm)
            have hnok : child.children = [] := hinv.noteNoKids child hchildmem hchildp.1
              (by intro h; rw [h] at hty; simp at hty)
            rw [hdchild, hnok] at hc2
            cases hc2
        · have hchne : ch ≠ c := by
            intro h
            subst h
            exact (List.nodup_cons.1 hnodup).1 hchr
          have hchmemF : ch ∈ F.children := hsubs ch (List.mem_cons_of_mem _ hchr)
          have hcmemF : c ∈ F.children := hsubs c (List.mem_cons_self _ _)
          have hcdoc : ∃ e ∈ t, e.userId = u ∧ e.id = c := ⟨child, hchildmem, hchildp.1, hchildp.2⟩
          have htrans : Desc u (deleteOne t (fun e => e.userId == u && e.id == c)) ch x := by
            refine desc_step_transfer u t _ ch c ?_ ?_ ?_ x hx
            · intro d hd hu hdd hd0
              exact sibling_spine_disjoint u rank t hinv F hF hFu ch c hchmemF hcmemF hchne
                hcdoc d.id ⟨d, hd, hu, rfl⟩ hdd hd0
            · intro z hz hzc
              subst hzc
              exact sibling_spine_disjoint u rank t hinv F hF hFu ch z hchmemF hcmemF hchne
                hcdoc z hcdoc hz (Desc.refl z)
            · intro d hd hnd
              have hdc : d.id ≠ c := by
                intro hq
                exact hnd (by rw [hq]; exact Desc.refl c)
              exact ⟨d, mem_deleteOne_of_mem t _ d hd (by simp [hdc]), rfl, rfl,
                fun z hz _ => hz⟩
          have hFid : F.id ≠ c := by
            intro hq
            exact hFnotsub (by rw [hq]; exact Desc.refl c)
          exact ih _ F (invW_sub u rank _ t hinv hsubDel)
            (mem_deleteOne_of_mem t _ F hF (by simp [hFid])) hFu
            (fun z hz => hsubs z (List.mem_cons_of_mem _ hz)) (List.Nodup.of_cons hnodup)
            (fun z hz => hranks z (List.mem_cons_of_mem _ hz)) ch hchr x htrans

theorem dfr_complete (u : String) (rank : Nat → Nat) :
    ∀ fuel t c, InvW u rank t → rank c < fuel →
      ∀ x, Desc u t c x → noOwnedDoc u (deleteFolderRecursively u fuel t c) x := by
  intro fuel
  induction fuel with
  | zero =>
    intro t c _ h
    exact absurd h (Nat.not_lt_zero _)
  | succ fuel ih =>
    intro t c hinv hrank x hx
    cases hfind : t.find? (fun e => e.userId == u && e.id == c) with
    | none =>
      simp only [deleteFolderRecursively, hfind]
      have hnod := find?_user_id_none u t c hfind
      have hxc : x = c := by
        rcases desc_head_cases u t c x hx with h | ⟨d, hd, hu, hid, _⟩
        · exact h.symm
        · exact absurd hid (hnod d hd hu)
      subst hxc
      exact hnod
    | some folder =>
      have hfp := List.find?_some hfind
      simp only [Bool.and_eq_true, beq_iff_eq] at hfp
      have hfmem := List.mem_of_find?_eq_some hfind
      simp only [deleteFolderRecursively, hfind]
      have hsub1 : StoreSub (delChildren (fun t2 c2 => deleteFolderRecursively u fuel t2 c2) u t
          folder.children) t :=
        delChildren_sub u _ (fun t2 c2 => dfr_sub u fuel t2 c2) folder.children t
      have hinv1 : InvW u rank (delChildren (fun t2 c2 => deleteFolderRecursively u fuel t2 c2)
          u t folder.children) := invW_sub u rank _ t hinv hsub1
      have hsub2 : StoreSub (match folder.parentFolder with
          | some pid =>
            updateOne (delChildren (fun t2 c2 => deleteFolderRecursively u fuel t2 c2) u t
              folder.children) (fun d => d.userId == u && d.id == pid)
              (fun d => { d with children := d.children.filter (fun z => z != c) })
          | none => delChildren (fun t2 c2 => deleteFolderRecursively u fuel t2 c2) u t
              folder.children)
          (delChildren (fun t2 c2 => deleteFolderRecursively u fuel t2 c2) u t
            folder.children) := by
        cases folder.parentFolder with
        | none => exact storeSub_refl _
        | some pid =>
          exact storeSub_updateOne _ _ _ (fun e =>
            ⟨rfl, rfl, rfl, rfl, rfl, rfl, rfl, List.filter_sublist _⟩)
      rcases desc_head_cases u t c x hx with hxeq | ⟨d, hd, hu, hid, ch, hch, hchx⟩
      · subst hxeq
        exact deleteOne_by_id _ u c (invW_sub u rank _ _ hinv1 hsub2).uniq
      · have hdfold : d = folder := uniq_mem_id_inj t hinv.uniq d folder hd hfmem
          (hid.trans hfp.2.symm)
        rw [hdfold] at hch
        have hloop : noOwnedDoc u (delChildren (fun t2 c2 => deleteFolderRecursively u fuel t2 c2)
            u t folder.children) x := by
          refine delChildren_complete u rank fuel _ (fun t2 c2 => dfr_sub u fuel t2 c2)
            (fun t2 c2 hi => dfr_frame u rank fuel t2 c2 hi)
            (fun t2 c2 hi hr => ih t2 c2 hi hr) folder.children t folder hinv hfmem hfp.1
            (fun z hz => hz) (hinv.kidsNodup folder hfmem hfp.1) ?_ ch hch x hchx
          intro z hz
          have h1 : rank z < rank folder.id := hinv.rankOK folder hfmem hfp.1 z hz
          have h2 : rank folder.id ≤ fuel := by
            rw [hfp.2]
            exact Nat.lt_succ_iff.1 hrank
          exact lt_of_lt_of_le h1 h2
        exact noOwned_sub u _ _ (storeSub_trans _ _ _ (storeSub_deleteOne _ _) hsub2) x hloop

/-- C8: orphan-tolerant deletion.  In any weakly consistent state — dangling
child references allowed — where the containing path resolves, the target
item is found and is a folder (here one whose `children` contains a dangling
id), `deleteFVItem` succeeds (200) and removes every reachable descendant of
the folder together with the folder itself: no document of the caller with
an id in the folder's subtree remains.  The dangling child is skipped
silently by the defensive re-read. -/
theorem orphan_tolerant_deletion (u itemName : String) (p : List String) (pid : Option Nat)
    (F : Doc) (rank : Nat → Nat) (fuel : Nat) (s : List Doc)
    (hinv : InvW u rank s) (hroot : itemName ≠ "root")
    (hres : resolveChain u s (p.drop 1) none = Except.ok pid)
    (htgt : s.find? (fun d => d.userId == u && d.name == itemName && d.parentFolder == pid) =
      some F)
    (hF : F.type = "folder") (hdangle : ∃ c ∈ F.children, ∀ e ∈ s, e.id ≠ c)
    (hfuel : rank F.id < fuel) :
    (deleteFVItem u (some p) itemName fuel s).1 = Resp.okSimple ∧
    ∀ x, Desc u s F.id x → noOwnedDoc u (deleteFVItem u (some p) itemName fuel s).2 x := by
  have hroot2 : (itemName == "root") = false := beq_eq_false_iff_ne.2 hroot
  have hFn : (F.type == "note") = false := by simp [hF]
  simp only [deleteFVItem, hroot2, Bool.false_eq_true, if_false, hres, htgt, hFn]
  exact ⟨trivial, fun x hx => dfr_complete u rank fuel s F.id hinv hfuel x hx⟩

/-- C8 witness: folder "A" (id 1) lists the dangling id 99 alongside the
real note id 2; deleting "A" succeeds and leaves no owned document of the
subtree. -/
theorem orphan_tolerant_deletion_witness :
    (deleteFVItem "u" (some ["root"]) "A" 10
        [⟨1, "u", "A", none, "folder", 0, [99, 2], ""⟩,
         ⟨2, "u", "N", some 1, "note", 0, [], ""⟩]).1 = Resp.okSimple ∧
    ∀ x, Desc "u" [⟨1, "u", "A", none, "folder", 0, [99, 2], ""⟩,
          ⟨2, "u", "N", some 1, "note", 0, [], ""⟩] 1 x →
      noOwnedDoc "u" (deleteFVItem "u" (some ["root"]) "A" 10
        [⟨1, "u", "A", none, "folder", 0, [99, 2], ""⟩,
         ⟨2, "u", "N", some 1, "note", 0, [], ""⟩]).2 x :=
  orphan_tolerant_deletion "u" "A" ["root"] none
    ⟨1, "u", "A", none, "folder", 0, [99, 2], ""⟩ (fun x => 10 - x) 10
    [⟨1, "u", "A", none, "folder", 0, [99, 2], ""⟩,
     ⟨2, "u", "N", some 1, "note", 0, [], ""⟩]
    (by
      refine ⟨?_, ?_, ?_, ?_, ?_⟩
      · show (List.map Doc.id [⟨1, "u", "A", none, "folder", 0, [99, 2], ""⟩,
          (⟨2, "u", "N", some 1, "note", 0, [], ""⟩ : Doc)]).Nodup
        decide
      · decide
      · decide
      · decide
      · decide)
    (by decide) (by rfl) (by rfl) rfl ⟨99, by decide, by decide⟩ (by decide)

/-- C1: recursive deletion completeness.  In any fully consistent state, for
a folder `F` located by a resolvable containing path and its name,
`deleteFVItem` succeeds (200); afterwards no document whose id lies in `F`'s
subtree (the `Desc` closure: `F` itself, and notes and sub-folders to any
depth) remains in the store, and when `F` has a parent, `F`'s id has been
pulled from that parent's `children` list (the parent survives with `F.id`
removed). -/
theorem recursive_deletion_completeness (u itemName : String) (p : List String)
    (pid : Option Nat) (F : Doc) (rank : Nat → Nat) (fuel : Nat) (s : List Doc)
    (hcons : Consistent u rank s) (hroot : itemName ≠ "root")
    (hres : resolveChain u s (p.drop 1) none = Except.ok pid)
    (htgt : s.find? (fun d => d.userId == u && d.name == itemName && d.parentFolder == pid) =
      some F)
    (hF : F.type = "folder") (hfuel : rank F.id < fuel) :
    (deleteFVItem u (some p) itemName fuel s).1 = Resp.okSimple ∧
    (∀ x, Desc u s F.id x → ∀ d ∈ (deleteFVItem u (some p) itemName fuel s).2, d.id ≠ x) ∧
    (∀ pv, F.parentFolder = some pv →
        ∃ d2 ∈ (deleteFVItem u (some p) itemName fuel s).2, d2.id = pv ∧
          F.id ∉ d2.children) := by
  have hinv := hcons.toInvW
  have hroot2 : (itemName == "root") = false := beq_eq_false_iff_ne.2 hroot
  have hFn : (F.type == "note") = false := by simp [hF]
  have htgtp := List.find?_some htgt
  simp only [Bool.and_eq_true, beq_iff_eq] at htgtp
  have hFu : F.userId = u := htgtp.1.1
  have hFmem := List.mem_of_find?_eq_some htgt
  simp only [deleteFVItem, hroot2, Bool.false_eq_true, if_false, hres, htgt, hFn]
  refine ⟨trivial, ?_, ?_⟩
  · intro x hx d hd hdx
    have hown : ∀ e ∈ s, e.id = x → e.userId = u := by
      cases hx with
      | refl =>
        intro e he hex
        have : e = F := uniq_mem_id_inj s hinv.uniq e F he hFmem hex
        rw [this]
        exact hFu
      | snoc hay d0 hd0 hu0 hid0 hxmem =>
        intro e he hex
        obtain ⟨e1, he1, hei1, heu1, _⟩ := hcons.cohStrict d0 hd0 hu0 _ hxmem
        have : e = e1 := uniq_mem_id_inj s hinv.uniq e e1 he he1 (hex.trans hei1.symm)
        rw [this]
        exact heu1
    have hsubr : StoreSub (deleteFolderRecursively u fuel s F.id) s := dfr_sub u fuel s F.id
    obtain ⟨b, hb, hshr⟩ := hsubr.2 d hd
    have hbx : b.id = x := hshr.1.symm.trans hdx
    have hdu : d.userId = u := hshr.2.1.trans (hown b hb hbx)
    exact dfr_complete u rank fuel s F.id hinv hfuel x hx d hd hdu hdx
  · intro pv hpf
    obtain ⟨P, hP, hPid, hPu, hPch⟩ := hcons.parentBack F hFmem hFu pv hpf
    have hrk : rank F.id < rank pv := by
      have hq := hinv.rankOK P hP hPu F.id hPch
      rw [hPid] at hq
      exact hq
    have hne : F.id ≠ pv := fun h => absurd (h ▸ hrk) (lt_irrefl _)
    cases fuel with
    | zero => exact absurd hfuel (Nat.not_lt_zero _)
    | succ fuel =>
      have hfindF : s.find? (fun e => e.userId == u && e.id == F.id) = some F := by
        apply find?_eq_some_of_unique s _ F hFmem (by simp [hFu])
        intro e he hpe
        simp only [Bool.and_eq_true, beq_iff_eq] at hpe
        exact uniq_mem_id_inj s hinv.uniq e F he hFmem hpe.2
      simp only [deleteFolderRecursively, hfindF, hpf]
      have hP1 : P ∈ delChildren (fun t2 c2 => deleteFolderRecursively u fuel t2 c2) u s
          F.children := by
        apply delChildren_frame u rank _ (fun t2 c2 => dfr_sub u fuel t2 c2)
          (fun t2 c2 hi => dfr_frame u rank fuel t2 c2 hi) F.children s hinv P hP
        · intro ch hch hDesc
          have h2 : Desc u s F.id P.id := desc_prepend u s F F.id ch P.id hFmem hFu rfl hch
            hDesc
          rcases desc_rank u rank s hinv.rankOK F.id P.id h2 with he | hlt
          · rw [hPid] at he
            exact hne he.symm
          · rw [hPid] at hlt
            exact absurd (hlt.trans hrk) (lt_irrefl _)
        · intro ch hch hexf
          obtain ⟨f, hf, hfu2, hfi, hfp2⟩ := hexf
          obtain ⟨e2, he2, hei2, heu2, hep2⟩ := hcons.cohStrict F hFmem hFu ch hch
          have hef : e2 = f := uniq_mem_id_inj s hinv.uniq e2 f he2 hf (hei2.trans hfi.symm)
          have hq : (some F.id : Option Nat) = some P.id := by rw [← hep2, hef, hfp2]
          have hq2 := Option.some_injective _ hq
          rw [hPid] at hq2
          exact hne hq2
      have hinv1 : InvW u rank (delChildren (fun t2 c2 => deleteFolderRecursively u fuel t2 c2)
          u s F.children) :=
        invW_sub u rank _ s hinv (delChildren_sub u _ (fun t2 c2 => dfr_sub u fuel t2 c2)
          F.children s)
      have hspec := updateOne_spec _ (fun e => e.userId == u && e.id == pv)
        (fun e => { e with children := e.children.filter (fun z => z != F.id) })
        hinv1.uniq P hP1 (by simp [hPu, hPid])
        (by
          intro e he hqe
          simp only [Bool.and_eq_true, beq_iff_eq] at hqe
          rw [hqe.2, hPid])
      refine ⟨{ P with children := P.children.filter (fun z => z != F.id) },
        mem_deleteOne_of_mem _ _ _ hspec.1 ?_, hPid, ?_⟩
      · show (P.userId == u && P.id == F.id) = false
        have hPF : P.id ≠ F.id := by
          rw [hPid]
          exact fun h => hne h.symm
        simp [hPF]
      · intro hmem
        have := (List.mem_filter.1 hmem).2
        simp at this

/-- C1 witness: in the consistent tree P(1) ⊃ A(2) ⊃ B(3) ⊃ note C(4),
deleting folder "A" through path ["root", "P"] succeeds, removes ids 2, 3, 4
entirely, and pulls 2 from P's children. -/
theorem recursive_deletion_completeness_witness :
    (deleteFVItem "u" (some ["root", "P"]) "A" 9
        [⟨1, "u", "P", none, "folder", 0, [2], ""⟩,
         ⟨2, "u", "A", some 1, "folder", 0, [3], ""⟩,
         ⟨3, "u", "B", some 2, "folder", 0, [4], ""⟩,
         ⟨4, "u", "C", some 3, "note", 0, [], ""⟩]).1 = Resp.okSimple ∧
    (∀ x, Desc "u" [⟨1, "u", "P", none, "folder", 0, [2], ""⟩,
          ⟨2, "u", "A", some 1, "folder", 0, [3], ""⟩,
          ⟨3, "u", "B", some 2, "folder", 0, [4], ""⟩,
          ⟨4, "u", "C", some 3, "note", 0, [], ""⟩] 2 x →
        ∀ d ∈ (deleteFVItem "u" (some ["root", "P"]) "A" 9
          [⟨1, "u", "P", none, "folder", 0, [2], ""⟩,
           ⟨2, "u", "A", some 1, "folder", 0, [3], ""⟩,
           ⟨3, "u", "B", some 2, "folder", 0, [4], ""⟩,
           ⟨4, "u", "C", some 3, "note", 0, [], ""⟩]).2, d.id ≠ x) ∧
    (∀ pv, (some 1 : Option Nat) = some pv →
        ∃ d2 ∈ (deleteFVItem "u" (some ["root", "P"]) "A" 9
          [⟨1, "u", "P", none, "folder", 0, [2], ""⟩,
           ⟨2, "u", "A", some 1, "folder", 0, [3], ""⟩,
           ⟨3, "u", "B", some 2, "folder", 0, [4], ""⟩,
           ⟨4, "u", "C", some 3, "note", 0, [], ""⟩]).2, d2.id = pv ∧ 2 ∉ d2.children) :=
  recursive_deletion_completeness "u" "A" ["root", "P"] (some 1)
    ⟨2, "u", "A", some 1, "folder", 0, [3], ""⟩ (fun x => 10 - x) 9
    [⟨1, "u", "P", none, "folder", 0, [2], ""⟩,
     ⟨2, "u", "A", some 1, "folder", 0, [3], ""⟩,
     ⟨3, "u", "B", some 2, "folder", 0, [4], ""⟩,
     ⟨4, "u", "C", some 3, "note", 0, [], ""⟩]
    (by
      refine ⟨⟨?_, ?_, ?_, ?_, ?_⟩, ?_, ?_⟩
      · show (List.map Doc.id [⟨1, "u", "P", none, "folder", 0, [2], ""⟩,
          ⟨2, "u", "A", some 1, "folder", 0, [3], ""⟩,
          ⟨3, "u", "B", some 2, "folder", 0, [4], ""⟩,
          (⟨4, "u", "C", some 3, "note", 0, [], ""⟩ : Doc)]).Nodup
        decide
      · decide
      · decide
      · decide
      · decide
      · decide
      · decide)
    (by decide) (by rfl) (by rfl) rfl (by decide)

theorem find?_proj (u : String) (s : List Doc) (p : Doc → Bool)
    (hp : ∀ d ∈ s, p d = true → d.userId = u) : (projU u s).find? p = s.find? p := by
  induction s with
  | nil => rfl
  | cons d rest ih =>
    by_cases hpd : p d = true
    · have hdu : (d.userId == u) = true := beq_iff_eq.2 (hp d (List.mem_cons_self _ _) hpd)
      simp [projU, List.filter, hdu, List.find?, hpd]
    · have hpd' : p d = false := by simpa using hpd
      have ihr := ih (fun e he hpe => hp e (List.mem_cons_of_mem _ he) hpe)
      by_cases hdu : (d.userId == u) = true
      · simp only [projU, List.filter_cons, hdu, if_true, List.find?, hpd']
        exact ihr
      · have hdu' : (d.userId == u) = false := by simpa using hdu
        simp only [projU, List.filter_cons, hdu', Bool.false_eq_true, if_false]
        rw [show (List.filter (fun d => d.userId == u) rest).find? p = (projU u rest).find? p
          from rfl, ihr]
        simp [List.find?, hpd']

theorem projU_deleteOne (u : String) (s : List Doc) (p : Doc → Bool)
    (hp : ∀ d ∈ s, p d = true → d.userId = u) :
    projU u (deleteOne s p) = deleteOne (projU u s) p := by
  induction s with
  | nil => rfl
  | cons d rest ih =>
    have ihr := ih (fun e he hpe => hp e (List.mem_cons_of_mem _ he) hpe)
    by_cases hpd : p d = true
    · have hdu : (d.userId == u) = true := beq_iff_eq.2 (hp d (List.mem_cons_self _ _) hpd)
      simp [projU, deleteOne, List.filter, hdu, hpd]
    · have hpd' : p d = false := by simpa using hpd
      by_cases hdu : (d.userId == u) = true
      · simp only [projU, deleteOne, hpd', Bool.false_eq_true, if_false, List.filter_cons,
          hdu, if_true]
        rw [show List.filter (fun d => d.userId == u) (deleteOne rest p) =
          projU u (deleteOne rest p) from rfl, ihr]
        simp [deleteOne, hpd', projU]
      · have hdu' : (d.userId == u) = false := by simpa using hdu
        simp only [projU, deleteOne, hpd', Bool.false_eq_true, if_false, List.filter_cons, hdu']
        exact ihr

theorem othersU_deleteOne (u : String) (s : List Doc) (p : Doc → Bool)
    (hp : ∀ d ∈ s, p d = true → d.userId = u) :
    othersU u (deleteOne s p) = othersU u s := by
  induction s with
  | nil => rfl
  | cons d rest ih =>
    have ihr := ih (fun e he hpe => hp e (List.mem_cons_of_mem _ he) hpe)
    by_cases hpd : p d = true
    · have hdu : (d.userId != u) = false := by
        simp [hp d (List.mem_cons_self _ _) hpd]
      simp [othersU, deleteOne, List.filter, hdu, hpd]
    · have hpd' : p d = false := by simpa using hpd
      simp only [othersU, deleteOne, hpd', Bool.false_eq_true, if_false, List.filter_cons]
      rw [show List.filter (fun d => d.userId != u) (deleteOne rest p) =
        othersU u (deleteOne rest p) from rfl, ihr]
      rfl

theorem projU_updateOne (u : String) (s : List Doc) (p : Doc → Bool) (f : Doc → Doc)
    (hp : ∀ d ∈ s, p d = true → d.userId = u) (hf : ∀ e, (f e).userId = e.userId) :
    projU u (updateOne s p f) = updateOne (projU u s) p f := by
  induction s with
  | nil => rfl
  | cons d rest ih =>
    have ihr := ih (fun e he hpe => hp e (List.mem_cons_of_mem _ he) hpe)
    by_cases hpd : p d = true
    · have hduv : d.userId = u := hp d (List.mem_cons_self _ _) hpd
      have hdu : (d.userId == u) = true := beq_iff_eq.2 hduv
      have hfu : ((f d).userId == u) = true := beq_iff_eq.2 ((hf d).trans hduv)
      simp [projU, updateOne, List.filter, hdu, hfu, hpd]
    · have hpd' : p d = false := by simpa using hpd
      by_cases hdu : (d.userId == u) = true
      · simp only [projU, updateOne, hpd', Bool.false_eq_true, if_false, List.filter_cons,
          hdu, if_true]
        rw [show List.filter (fun d => d.userId == u) (updateOne rest p f) =
          projU u (updateOne rest p f) from rfl, ihr]
        simp [updateOne, hpd', projU]
      · have hdu' : (d.userId == u) = false := by simpa using hdu
        simp only [projU, updateOne, hpd', Bool.false_eq_true, if_false, List.filter_cons, hdu']
        exact ihr

theorem othersU_updateOne (u : String) (s : List Doc) (p : Doc → Bool) (f : Doc → Doc)
    (hp : ∀ d ∈ s, p d = true → d.userId = u) (hf : ∀ e, (f e).userId = e.userId) :
    othersU u (updateOne s p f) = othersU u s := by
  induction s with
  | nil => rfl
  | cons d rest ih =>
    have ihr := ih (fun e he hpe => hp e (List.mem_cons_of_mem _ he) hpe)
    by_cases hpd : p d = true
    · have hduv : d.userId = u := hp d (List.mem_cons_self _ _) hpd
      have hdu : (d.userId != u) = false := by simp [hduv]
      have hfu : ((f d).userId != u) = false := by simp [(hf d).trans hduv]
      simp [othersU, updateOne, List.filter, hdu, hfu, hpd]
    · have hpd' : p d = false := by simpa using hpd
      simp only [othersU, updateOne, hpd', Bool.false_eq_true, if_false, List.filter_cons]
      rw [show List.filter (fun d => d.userId != u) (updateOne rest p f) =
        othersU u (updateOne rest p f) from rfl, ihr]
      rfl

theorem projU_append (u : String) (s l : List Doc) :
    projU u (s ++ l) = projU u s ++ projU u l := List.filter_append s l

theorem othersU_append (u : String) (s l : List Doc) :
    othersU u (s ++ l) = othersU u s ++ othersU u l := List.filter_append s l

theorem projU_idem (u : String) (s : List Doc) : projU u (projU u s) = projU u s := by
  simp [projU, List.filter_filter]

theorem resolveChain_proj (u : String) (s : List Doc) :
    ∀ segs carry, resolveChain u (projU u s) segs carry = resolveChain u s segs carry := by
  intro segs
  induction segs with
  | nil => intro carry; rfl
  | cons seg rest ih =>
    intro carry
    simp only [resolveChain]
    rw [find?_proj u s _ (by
      intro d _ hpd
      simp only [Bool.and_eq_true, beq_iff_eq] at hpd
      exact hpd.1.1.1)]
    cases hfind : s.find? (fun d => d.userId == u && d.name == seg && d.parentFolder == carry &&
        d.type == "folder") with
    | none => rfl
    | some d => exact ih (some d.id)

theorem resolveNC_proj (u : String) (s : List Doc) :
    ∀ segs carry, resolveNC u (projU u s) segs carry = resolveNC u s segs carry := by
  intro segs
  induction segs with
  | nil => intro carry; rfl
  | cons seg rest ih =>
    intro carry
    simp only [resolveNC]
    by_cases hseg : (seg == "root") = true
    · rw [if_pos hseg, if_pos hseg]
      exact ih none
    · rw [if_neg hseg, if_neg hseg]
      rw [find?_proj u s _ (by
        intro d _ hpd
        simp only [Bool.and_eq_true, beq_iff_eq] at hpd
        exact hpd.1.1.1)]
      cases hfind : s.find? (fun d => d.userId == u && d.type == "folder" && d.name == seg &&
          d.parentFolder == carry) with
      | none => rfl
      | some d => exact ih (some d.id)

theorem resolveParentDoc_proj (u : String) (s : List Doc) (p : List String) (pid : Option Nat) :
    resolveParentDoc u (projU u s) p pid = resolveParentDoc u s p pid := by
  simp only [resolveParentDoc]
  by_cases hpe : p.isEmpty = true
  · rw [if_pos hpe, if_pos hpe, find?_proj u s _ (by intro d _ hpd; simpa using hpd)]
  · rw [if_neg hpe, if_neg hpe]
    cases pid with
    | none => rfl
    | some pv =>
      show List.find? (fun d => d.userId == u && d.id == pv) (projU u s) =
        List.find? (fun d => d.userId == u && d.id == pv) s
      rw [find?_proj u s _ (by
        intro d _ hpd
        simp only [Bool.and_eq_true, beq_iff_eq] at hpd
        exact hpd.1)]

theorem scanChildren_proj (u : String) (s : List Doc) (target : String) :
    ∀ cs, scanChildren u (projU u s) target cs = scanChildren u s target cs := by
  intro cs
  induction cs with
  | nil => rfl
  | cons c rest ih =>
    simp only [scanChildren]
    rw [find?_proj u s _ (by
      intro d _ hpd
      simp only [Bool.and_eq_true, beq_iff_eq] at hpd
      exact hpd.1)]
    cases hfind : s.find? (fun d => d.userId == u && d.id == c) with
    | none => rfl
    | some d =>
      by_cases hn : (d.name == target) = true
      · simp [hn]
      · simp [hn, ih]

theorem walkSegs_proj (u : String) (s : List Doc) :
    ∀ segs cur, walkSegs u (projU u s) segs cur = walkSegs u s segs cur := by
  intro segs
  induction segs with
  | nil => intro cur; rfl
  | cons seg rest ih =>
    intro cur
    simp only [walkSegs]
    by_cases hc : cur.children.length > 0
    · rw [if_pos hc, if_pos hc, scanChildren_proj]
      cases hscan : scanChildren u s seg cur.children with
      | error e => rfl
      | ok v =>
        cases v with
        | none => rfl
        | some nid =>
          show (match List.find? (fun d => d.userId == u && d.id == nid && d.type == "folder") (projU u s) with
                | none => Except.error ()
                | some nxt => walkSegs u (projU u s) rest nxt) =
            (match List.find? (fun d => d.userId == u && d.id == nid && d.type == "folder") s with
             | none => Except.error ()
             | some nxt => walkSegs u s rest nxt)
          rw [find?_proj u s _ (by
            intro d _ hpd
            simp only [Bool.and_eq_true, beq_iff_eq] at hpd
            exact hpd.1.1)]
          cases s.find? (fun d => d.userId == u && d.id == nid && d.type == "folder") with
          | none => rfl
          | some nxt => exact ih nxt
    · rw [if_neg hc, if_neg hc]

theorem collectChildren_proj (u : String) (s : List Doc) :
    ∀ cs, collectChildren u (projU u s) cs = collectChildren u s cs := by
  intro cs
  induction cs with
  | nil => rfl
  | cons c rest ih =>
    simp only [collectChildren]
    rw [find?_proj u s _ (by
      intro d _ hpd
      simp only [Bool.and_eq_true, beq_iff_eq] at hpd
      exact hpd.1)]
    cases s.find? (fun d => d.userId == u && d.id == c) with
    | none => rfl
    | some d => rw [ih]

theorem delChildren_proj (u : String) (dfrF : List Doc → Nat → List Doc)
    (hproj : ∀ t c, projU u (dfrF t c) = dfrF (projU u t) c) :
    ∀ cs t, projU u (delChildren dfrF u t cs) = delChildren dfrF u (projU u t) cs := by
  intro cs
  induction cs with
  | nil => intro t; rfl
  | cons c rest ih =>
    intro t
    simp only [delChildren]
    rw [find?_proj u t _ (by
      intro d _ hpd
      simp only [Bool.and_eq_true, beq_iff_eq] at hpd
      exact hpd.1)]
    cases hfind : t.find? (fun d => d.userId == u && d.id == c) with
    | none => exact ih t
    | some child =>
      simp only []
      by_cases hty : (child.type == "folder") = true
      · rw [if_pos hty, if_pos hty, ← hproj t c]
        exact ih (dfrF t c)
      · rw [if_neg hty, if_neg hty, ← projU_deleteOne u t _ (by
          intro d _ hpd
          simp only [Bool.and_eq_true, beq_iff_eq] at hpd
          exact hpd.1)]
        exact ih (deleteOne t (fun d => d.userId == u && d.id == c))

theorem delChildren_others (u : String) (dfrF : List Doc → Nat → List Doc)
    (hothers : ∀ t c, othersU u (dfrF t c) = othersU u t) :
    ∀ cs t, othersU u (delChildren dfrF u t cs) = othersU u t := by
  intro cs
  induction cs with
  | nil => intro t; rfl
  | cons c rest ih =>
    intro t
    show othersU u (delChildren dfrF u _ rest) = othersU u t
    cases hfind : t.find? (fun d => d.userId == u && d.id == c) with
    | none =>
      simp only [delChildren, hfind]
      exact ih t
    | some child =>
      simp only [delChildren, hfind]
      by_cases hty : (child.type == "folder") = true
      · rw [if_pos hty, ih (dfrF t c), hothers t c]
      · rw [if_neg hty, ih _, othersU_deleteOne u t _ (by
          intro d _ hpd
          simp only [Bool.and_eq_true, beq_iff_eq] at hpd
          exact hpd.1)]

theorem dfr_proj (u : String) :
    ∀ fuel t c, projU u (deleteFolderRecursively u fuel t c) =
      deleteFolderRecursively u fuel (projU u t) c := by
  intro fuel
  induction fuel with
  | zero => intro t c; rfl
  | succ fuel ih =>
    intro t c
    show projU u (deleteFolderRecursively u (fuel + 1) t c) =
      deleteFolderRecursively u (fuel + 1) (projU u t) c
    simp only [deleteFolderRecursively]
    rw [find?_proj u t _ (by
      intro d _ hpd
      simp only [Bool.and_eq_true, beq_iff_eq] at hpd
      exact hpd.1)]
    cases hfind : t.find? (fun d => d.userId == u && d.id == c) with
    | none => rfl
    | some folder =>
      simp only []
      rw [← delChildren_proj u _ (fun t2 c2 => ih t2 c2) folder.children t]
      cases hpf : folder.parentFolder with
      | none =>
        simp only []
        exact projU_deleteOne u _ _ (by
          intro d _ hpd
          simp only [Bool.and_eq_true, beq_iff_eq] at hpd
          exact hpd.1)
      | some pid =>
        simp only []
        rw [← projU_updateOne u _ (fun d => d.userId == u && d.id == pid)
          (fun d => { d with children := d.children.filter (fun z => z != c) }) (by
          intro d _ hpd
          simp only [Bool.and_eq_true, beq_iff_eq] at hpd
          exact hpd.1) (fun e => rfl)]
        exact projU_deleteOne u _ _ (by
          intro d _ hpd
          simp only [Bool.and_eq_true, beq_iff_eq] at hpd
          exact hpd.1)

theorem dfr_others (u : String) :
    ∀ fuel t c, othersU u (deleteFolderRecursively u fuel t c) = othersU u t := by
  intro fuel
  induction fuel with
  | zero => intro t c; rfl
  | succ fuel ih =>
    intro t c
    cases hfind : t.find? (fun d => d.userId == u && d.id == c) with
    | none => simp only [deleteFolderRecursively, hfind]
    | some folder =>
      simp only [deleteFolderRecursively, hfind]
      cases hpf : folder.parentFolder with
      | none =>
        simp only []
        rw [othersU_deleteOne u _ _ (by
          intro d _ hpd
          simp only [Bool.and_eq_true, beq_iff_eq] at hpd
          exact hpd.1)]
        exact delChildren_others u _ (fun t2 c2 => ih t2 c2) folder.children t
      | some pid =>
        simp only []
        rw [othersU_deleteOne u _ _ (by
          intro d _ hpd
          simp only [Bool.and_eq_true, beq_iff_eq] at hpd
          exact hpd.1)]
        rw [othersU_updateOne u _ (fun d => d.userId == u && d.id == pid)
          (fun d => { d with children := d.children.filter (fun z => z != c) }) (by
          intro d _ hpd
          simp only [Bool.and_eq_true, beq_iff_eq] at hpd
          exact hpd.1) (fun e => rfl)]
        exact delChildren_others u _ (fun t2 c2 => ih t2 c2) folder.children t

theorem filter_proj (u : String) (p : Doc → Bool)
    (hp : ∀ d, p d = true → (d.userId == u) = true) :
    ∀ s : List Doc, (projU u s).filter p = s.filter p := by
  intro s
  induction s with
  | nil => rfl
  | cons e rest ih =>
    have hstep : projU u (e :: rest) =
        if (e.userId == u) = true then e :: projU u rest else projU u rest := by
      simp only [projU, List.filter_cons]
    rw [hstep]
    by_cases he : (e.userId == u) = true
    · rw [if_pos he, List.filter_cons, List.filter_cons]
      by_cases hpe : p e = true
      · rw [if_pos hpe, if_pos hpe, ih]
      · rw [if_neg hpe, if_neg hpe, ih]
    · rw [if_neg he, ih, List.filter_cons, if_neg (fun hpe => he (hp e hpe))]

theorem projU_snoc (u : String) (s : List Doc) (nd : Doc) (hnd : nd.userId = u) :
    projU u s ++ [nd] = projU u (s ++ [nd]) := by
  have h1 : projU u [nd] = [nd] := by simp [projU, hnd]
  rw [projU_append, h1]

theorem othersU_snoc (u : String) (s : List Doc) (nd : Doc) (hnd : nd.userId = u) :
    othersU u (s ++ [nd]) = othersU u s := by
  have h1 : othersU u [nd] = [] := by simp [othersU, hnd]
  rw [othersU_append, h1, List.append_nil]

theorem projU_push (u : String) (s : List Doc) (nd : Doc) (hnd : nd.userId = u)
    (q : Doc → Bool) (g : Doc → Doc)
    (hq : ∀ d, q d = true → d.userId = u) (hg : ∀ e, (g e).userId = e.userId) :
    updateOne (projU u s ++ [nd]) q g = projU u (updateOne (s ++ [nd]) q g) := by
  rw [projU_updateOne u (s ++ [nd]) q g (fun d _ h => hq d h) hg, ← projU_snoc u s nd hnd]

theorem othersU_push (u : String) (s : List Doc) (nd : Doc) (hnd : nd.userId = u)
    (q : Doc → Bool) (g : Doc → Doc)
    (hq : ∀ d, q d = true → d.userId = u) (hg : ∀ e, (g e).userId = e.userId) :
    othersU u (updateOne (s ++ [nd]) q g) = othersU u s := by
  rw [othersU_updateOne u (s ++ [nd]) q g (fun d _ h => hq d h) hg, othersU_snoc u s nd hnd]

theorem projU_delPull (u : String) (s : List Doc) (q1 q2 : Doc → Bool) (g : Doc → Doc)
    (h1 : ∀ d, q1 d = true → d.userId = u) (h2 : ∀ d, q2 d = true → d.userId = u)
    (hg : ∀ e, (g e).userId = e.userId) :
    updateOne (deleteOne (projU u s) q1) q2 g = projU u (updateOne (deleteOne s q1) q2 g) := by
  rw [projU_updateOne u (deleteOne s q1) q2 g (fun d _ h => h2 d h) hg,
      projU_deleteOne u s q1 (fun d _ h => h1 d h)]

theorem othersU_delPull (u : String) (s : List Doc) (q1 q2 : Doc → Bool) (g : Doc → Doc)
    (h1 : ∀ d, q1 d = true → d.userId = u) (h2 : ∀ d, q2 d = true → d.userId = u)
    (hg : ∀ e, (g e).userId = e.userId) :
    othersU u (updateOne (deleteOne s q1) q2 g) = othersU u s := by
  rw [othersU_updateOne u (deleteOne s q1) q2 g (fun d _ h => h2 d h) hg,
      othersU_deleteOne u s q1 (fun d _ h => h1 d h)]

theorem getFVItems_store (u : String) (po : Option (List String)) (fo : Option String)
    (s : List Doc) : (getFVItems u po fo s).2 = s := by
  unfold getFVItems
  repeat' split
  all_goals rfl

theorem getFVItems_iso (u : String) (po : Option (List String)) (fo : Option String)
    (s : List Doc) :
    (getFVItems u po fo (projU u s)).1 = (getFVItems u po fo s).1 ∧
    (getFVItems u po fo (projU u s)).2 = projU u (getFVItems u po fo s).2 ∧
    othersU u (getFVItems u po fo s).2 = othersU u s := by
  cases po with
  | none => exact ⟨rfl, rfl, rfl⟩
  | some p =>
    cases fo with
    | none => exact ⟨rfl, rfl, rfl⟩
    | some folder =>
      simp only [getFVItems]
      split
      · exact ⟨rfl, rfl, rfl⟩
      · split
        · refine ⟨?_, rfl, rfl⟩
          rw [filter_proj u (fun d => d.userId == u && d.parentFolder == none && d.type == "folder")
                (by intro d hpd; simp only [Bool.and_eq_true] at hpd; exact hpd.1.1) s,
              filter_proj u (fun d => d.userId == u && d.parentFolder == none && d.type == "note")
                (by intro d hpd; simp only [Bool.and_eq_true] at hpd; exact hpd.1.1) s]
        · rw [find?_proj u s _ (by
            intro d _ hpd
            simp only [Bool.and_eq_true, beq_iff_eq] at hpd
            exact hpd.1.1.1)]
          split
          · exact ⟨rfl, rfl, rfl⟩
          · rw [walkSegs_proj u s]
            split
            · exact ⟨rfl, rfl, rfl⟩
            · rw [collectChildren_proj u s]
              split
              · exact ⟨rfl, rfl, rfl⟩
              · exact ⟨rfl, rfl, rfl⟩

theorem newFolder_iso (u : String) (po : Option (List String)) (fn : String)
    (nid now : Nat) (s : List Doc) :
    (newFolder u po fn nid now (projU u s)).1 = (newFolder u po fn nid now s).1 ∧
    (newFolder u po fn nid now (projU u s)).2 = projU u (newFolder u po fn nid now s).2 ∧
    othersU u (newFolder u po fn nid now s).2 = othersU u s := by
  simp only [newFolder]
  split
  · exact ⟨rfl, rfl, rfl⟩
  · split
    · exact ⟨rfl, rfl, rfl⟩
    · cases po with
      | none => exact ⟨rfl, rfl, rfl⟩
      | some p =>
        simp only []
        rw [resolveNC_proj u s]
        split
        · exact ⟨rfl, rfl, rfl⟩
        · rw [resolveParentDoc_proj u s]
          rw [find?_proj u s _ (by
            intro d _ hpd
            simp only [Bool.and_eq_true, beq_iff_eq] at hpd
            exact hpd.1.1.1)]
          split
          · exact ⟨rfl, rfl, rfl⟩
          · split
            · refine ⟨rfl, ?_, ?_⟩
              · exact projU_push u s _ (by rfl) _ _
                  (by intro d hpd; simp only [Bool.and_eq_true, beq_iff_eq] at hpd; exact hpd.1)
                  (by intro e; rfl)
              · exact othersU_push u s _ (by rfl) _ _
                  (by intro d hpd; simp only [Bool.and_eq_true, beq_iff_eq] at hpd; exact hpd.1)
                  (by intro e; rfl)
            · refine ⟨rfl, ?_, ?_⟩
              · exact projU_snoc u s _ (by rfl)
              · exact othersU_snoc u s _ (by rfl)

theorem renameFVItem_iso (u oldN newN : String) (po : Option (List String)) (s : List Doc)
    (huniq : UniqIds s) :
    (renameFVItem u oldN newN po (projU u s)).1 = (renameFVItem u oldN newN po s).1 ∧
    (renameFVItem u oldN newN po (projU u s)).2 = projU u (renameFVItem u oldN newN po s).2 ∧
    othersU u (renameFVItem u oldN newN po s).2 = othersU u s := by
  simp only [renameFVItem]
  split
  · exact ⟨rfl, rfl, rfl⟩
  · cases po with
    | none => exact ⟨rfl, rfl, rfl⟩
    | some p =>
      simp only []
      rw [resolveChain_proj u s]
      split
      · exact ⟨rfl, rfl, rfl⟩
      · rw [find?_proj u s _ (by
          intro d _ hpd
          simp only [Bool.and_eq_true, beq_iff_eq] at hpd
          exact hpd.1.1)]
        split
        · exact ⟨rfl, rfl, rfl⟩
        · rename_i item hitem
          rw [find?_proj u s _ (by
            intro d _ hpd
            simp only [Bool.and_eq_true, beq_iff_eq] at hpd
            exact hpd.1.1)]
          split
          · exact ⟨rfl, rfl, rfl⟩
          · have hmem := List.mem_of_find?_eq_some hitem
            have hpred := List.find?_some hitem
            simp only [Bool.and_eq_true, beq_iff_eq] at hpred
            have hqu : ∀ d ∈ s, (d.id == item.id) = true → d.userId = u := by
              intro d hd hdq
              simp only [beq_iff_eq] at hdq
              have hde : d = item := uniq_mem_id_inj s huniq d item hd hmem hdq
              rw [hde]
              exact hpred.1.1
            refine ⟨rfl, ?_, ?_⟩
            · exact (projU_updateOne u s _ _ hqu (by intro e; rfl)).symm
            · exact othersU_updateOne u s _ _ hqu (by intro e; rfl)

theorem deleteFVItem_iso (u : String) (po : Option (List String)) (itemName : String)
    (fuel : Nat) (s : List Doc) :
    (deleteFVItem u po itemName fuel (projU u s)).1 = (deleteFVItem u po itemName fuel s).1 ∧
    (deleteFVItem u po itemName fuel (projU u s)).2 = projU u (deleteFVItem u po itemName fuel s).2 ∧
    othersU u (deleteFVItem u po itemName fuel s).2 = othersU u s := by
  simp only [deleteFVItem]
  split
  · exact ⟨rfl, rfl, rfl⟩
  · cases po with
    | none => exact ⟨rfl, rfl, rfl⟩
    | some p =>
      simp only []
      rw [resolveChain_proj u s]
      split
      · exact ⟨rfl, rfl, rfl⟩
      · rw [find?_proj u s _ (by
          intro d _ hpd
          simp only [Bool.and_eq_true, beq_iff_eq] at hpd
          exact hpd.1.1)]
        split
        · exact ⟨rfl, rfl, rfl⟩
        · split
          · split
            · refine ⟨rfl, ?_, ?_⟩
              · exact projU_delPull u s _ _ _
                  (by intro d hpd; simp only [Bool.and_eq_true, beq_iff_eq] at hpd; exact hpd.1)
                  (by intro d hpd; simp only [Bool.and_eq_true, beq_iff_eq] at hpd; exact hpd.1)
                  (by intro e; rfl)
              · exact othersU_delPull u s _ _ _
                  (by intro d hpd; simp only [Bool.and_eq_true, beq_iff_eq] at hpd; exact hpd.1)
                  (by intro d hpd; simp only [Bool.and_eq_true, beq_iff_eq] at hpd; exact hpd.1)
                  (by intro e; rfl)
            · refine ⟨rfl, ?_, ?_⟩
              · exact (projU_deleteOne u s _ (by
                  intro d _ hpd
                  simp only [Bool.and_eq_true, beq_iff_eq] at hpd
                  exact hpd.1)).symm
              · exact othersU_deleteOne u s _ (by
                  intro d _ hpd
                  simp only [Bool.and_eq_true, beq_iff_eq] at hpd
                  exact hpd.1)
          · refine ⟨rfl, ?_, ?_⟩
            · exact (dfr_proj u fuel s _).symm
            · exact dfr_others u fuel s _

theorem newNote_iso (u : String) (po : Option (List String)) (nid now : Nat) (s : List Doc) :
    (newNote u po nid now (projU u s)).1 = (newNote u po nid now s).1 ∧
    (newNote u po nid now (projU u s)).2 = projU u (newNote u po nid now s).2 ∧
    othersU u (newNote u po nid now s).2 = othersU u s := by
  cases po with
  | none => exact ⟨rfl, rfl, rfl⟩
  | some p =>
    simp only [newNote]
    rw [resolveNC_proj u s]
    split
    · exact ⟨rfl, rfl, rfl⟩
    · rw [resolveParentDoc_proj u s]
      split
      · split
        · refine ⟨rfl, ?_, ?_⟩
          · exact projU_push u s _ (by rfl) _ _
              (by intro d hpd; simp only [beq_iff_eq] at hpd; exact hpd)
              (by intro e; rfl)
          · exact othersU_push u s _ (by rfl) _ _
              (by intro d hpd; simp only [beq_iff_eq] at hpd; exact hpd)
              (by intro e; rfl)
        · refine ⟨rfl, ?_, ?_⟩
          · exact projU_push u s _ (by rfl) _ _
              (by intro d hpd; simp only [Bool.and_eq_true, beq_iff_eq] at hpd; exact hpd.1)
              (by intro e; rfl)
          · exact othersU_push u s _ (by rfl) _ _
              (by intro d hpd; simp only [Bool.and_eq_true, beq_iff_eq] at hpd; exact hpd.1)
              (by intro e; rfl)
      · refine ⟨rfl, ?_, ?_⟩
        · exact projU_snoc u s _ (by rfl)
        · exact othersU_snoc u s _ (by rfl)

theorem updateNote_iso (u : String) (title oldTitle content : String)
    (po : Option (List String)) (now : Nat) (s : List Doc) :
    (updateNote u title oldTitle content po now (projU u s)).1 =
      (updateNote u title oldTitle content po now s).1 ∧
    (updateNote u title oldTitle content po now (projU u s)).2 =
      projU u (updateNote u title oldTitle content po now s).2 ∧
    othersU u (updateNote u title oldTitle content po now s).2 = othersU u s := by
  cases po with
  | none => exact ⟨rfl, rfl, rfl⟩
  | some p =>
    simp only [updateNote]
    split
    · exact ⟨rfl, rfl, rfl⟩
    · split
      · exact ⟨rfl, rfl, rfl⟩
      · rw [resolveNC_proj u s]
        split
        · exact ⟨rfl, rfl, rfl⟩
        · rw [find?_proj u s _ (by
            intro d _ hpd
            simp only [Bool.and_eq_true, beq_iff_eq] at hpd
            exact hpd.1.1),
            find?_proj u s _ (by
            intro d _ hpd
            simp only [Bool.and_eq_true, beq_iff_eq] at hpd
            exact hpd.1.1.1),
            find?_proj u s _ (by
            intro d _ hpd
            simp only [Bool.and_eq_true, beq_iff_eq] at hpd
            exact hpd.1.1.1)]
          split
          · exact ⟨rfl, rfl, rfl⟩
          · refine ⟨rfl, ?_, ?_⟩
            · exact (projU_updateOne u s _ _ (by
                intro d _ hpd
                simp only [Bool.and_eq_true, beq_iff_eq] at hpd
                exact hpd.1) (by intro e; rfl)).symm
            · exact othersU_updateOne u s _ _ (by
                intro d _ hpd
                simp only [Bool.and_eq_true, beq_iff_eq] at hpd
                exact hpd.1) (by intro e; rfl)

/-- C9: user isolation.  All six operations read and write only documents of
the caller `u`: for any two stores (with unique ids) that agree on `u`'s
documents, every operation answers the same response, and the caller-visible
part of the resulting stores agrees as well; moreover on any store the
sequence of every other user's documents is left completely unchanged
(listing performs no mutation at all). -/
theorem user_isolation (u : String) (s1 s2 : List Doc)
    (h1 : UniqIds s1) (h2 : UniqIds s2) (hagree : projU u s1 = projU u s2) :
    (∀ po fo, (getFVItems u po fo s1).1 = (getFVItems u po fo s2).1 ∧
      (getFVItems u po fo s1).2 = s1) ∧
    (∀ po fn nid now, (newFolder u po fn nid now s1).1 = (newFolder u po fn nid now s2).1 ∧
      projU u (newFolder u po fn nid now s1).2 = projU u (newFolder u po fn nid now s2).2 ∧
      othersU u (newFolder u po fn nid now s1).2 = othersU u s1) ∧
    (∀ oldN newN po, (renameFVItem u oldN newN po s1).1 = (renameFVItem u oldN newN po s2).1 ∧
      projU u (renameFVItem u oldN newN po s1).2 = projU u (renameFVItem u oldN newN po s2).2 ∧
      othersU u (renameFVItem u oldN newN po s1).2 = othersU u s1) ∧
    (∀ po itn fuel, (deleteFVItem u po itn fuel s1).1 = (deleteFVItem u po itn fuel s2).1 ∧
      projU u (deleteFVItem u po itn fuel s1).2 = projU u (deleteFVItem u po itn fuel s2).2 ∧
      othersU u (deleteFVItem u po itn fuel s1).2 = othersU u s1) ∧
    (∀ po nid now, (newNote u po nid now s1).1 = (newNote u po nid now s2).1 ∧
      projU u (newNote u po nid now s1).2 = projU u (newNote u po nid now s2).2 ∧
      othersU u (newNote u po nid now s1).2 = othersU u s1) ∧
    (∀ title oldTitle content po now,
      (updateNote u title oldTitle content po now s1).1 =
        (updateNote u title oldTitle content po now s2).1 ∧
      projU u (updateNote u title oldTitle content po now s1).2 =
        projU u (updateNote u title oldTitle content po now s2).2 ∧
      othersU u (updateNote u title oldTitle content po now s1).2 = othersU u s1) := by
  refine ⟨?_, ?_, ?_, ?_, ?_, ?_⟩
  · intro po fo
    have a1 := getFVItems_iso u po fo s1
    have a2 := getFVItems_iso u po fo s2
    refine ⟨?_, getFVItems_store u po fo s1⟩
    calc (getFVItems u po fo s1).1
        = (getFVItems u po fo (projU u s1)).1 := a1.1.symm
      _ = (getFVItems u po fo (projU u s2)).1 := by rw [hagree]
      _ = (getFVItems u po fo s2).1 := a2.1
  · intro po fn nid now
    have a1 := newFolder_iso u po fn nid now s1
    have a2 := newFolder_iso u po fn nid now s2
    refine ⟨?_, ?_, a1.2.2⟩
    · calc (newFolder u po fn nid now s1).1
          = (newFolder u po fn nid now (projU u s1)).1 := a1.1.symm
        _ = (newFolder u po fn nid now (projU u s2)).1 := by rw [hagree]
        _ = (newFolder u po fn nid now s2).1 := a2.1
    · calc projU u (newFolder u po fn nid now s1).2
          = (newFolder u po fn nid now (projU u s1)).2 := a1.2.1.symm
        _ = (newFolder u po fn nid now (projU u s2)).2 := by rw [hagree]
        _ = projU u (newFolder u po fn nid now s2).2 := a2.2.1
  · intro oldN newN po
    have a1 := renameFVItem_iso u oldN newN po s1 h1
    have a2 := renameFVItem_iso u oldN newN po s2 h2
    refine ⟨?_, ?_, a1.2.2⟩
    · calc (renameFVItem u oldN newN po s1).1
          = (renameFVItem u oldN newN po (projU u s1)).1 := a1.1.symm
        _ = (renameFVItem u oldN newN po (projU u s2)).1 := by rw [hagree]
        _ = (renameFVItem u oldN newN po s2).1 := a2.1
    · calc projU u (renameFVItem u oldN newN po s1).2
          = (renameFVItem u oldN newN po (projU u s1)).2 := a1.2.1.symm
        _ = (renameFVItem u oldN newN po (projU u s2)).2 := by rw [hagree]
        _ = projU u (renameFVItem u oldN newN po s2).2 := a2.2.1
  · intro po itn fuel
    have a1 := deleteFVItem_iso u po itn fuel s1
    have a2 := deleteFVItem_iso u po itn fuel s2
    refine ⟨?_, ?_, a1.2.2⟩
    · calc (deleteFVItem u po itn fuel s1).1
          = (deleteFVItem u po itn fuel (projU u s1)).1 := a1.1.symm
        _ = (deleteFVItem u po itn fuel (projU u s2)).1 := by rw [hagree]
        _ = (deleteFVItem u po itn fuel s2).1 := a2.1
    · calc projU u (deleteFVItem u po itn fuel s1).2
          = (deleteFVItem u po itn fuel (projU u s1)).2 := a1.2.1.symm
        _ = (deleteFVItem u po itn fuel (projU u s2)).2 := by rw [hagree]
        _ = projU u (deleteFVItem u po itn fuel s2).2 := a2.2.1
  · intro po nid now
    have a1 := newNote_iso u po nid now s1
    have a2 := newNote_iso u po nid now s2
    refine ⟨?_, ?_, a1.2.2⟩
    · calc (newNote u po nid now s1).1
          = (newNote u po nid now (projU u s1)).1 := a1.1.symm
        _ = (newNote u po nid now (projU u s2)).1 := by rw [hagree]
        _ = (newNote u po nid now s2).1 := a2.1
    · calc projU u (newNote u po nid now s1).2
          = (newNote u po nid now (projU u s1)).2 := a1.2.1.symm
        _ = (newNote u po nid now (projU u s2)).2 := by rw [hagree]
        _ = projU u (newNote u po nid now s2).2 := a2.2.1
  · intro title oldTitle content po now
    have a1 := updateNote_iso u title oldTitle content po now s1
    have a2 := updateNote_iso u title oldTitle content po now s2
    refine ⟨?_, ?_, a1.2.2⟩
    · calc (updateNote u title oldTitle content po now s1).1
          = (updateNote u title oldTitle content po now (projU u s1)).1 := a1.1.symm
        _ = (updateNote u title oldTitle content po now (projU u s2)).1 := by rw [hagree]
        _ = (updateNote u title oldTitle content po now s2).1 := a2.1
    · calc projU u (updateNote u title oldTitle content po now s1).2
          = (updateNote u title oldTitle content po now (projU u s1)).2 := a1.2.1.symm
        _ = (updateNote u title oldTitle content po now (projU u s2)).2 := by rw [hagree]
        _ = projU u (updateNote u title oldTitle content po now s2).2 := a2.2.1

theorem user_isolation_witness :
    UniqIds ([⟨1, "u1", "docs", none, "folder", 0, [], ""⟩,
              ⟨2, "u2", "stuff", none, "folder", 0, [], ""⟩] : List Doc) ∧
    UniqIds ([⟨1, "u1", "docs", none, "folder", 0, [], ""⟩] : List Doc) ∧
    projU "u1" ([⟨1, "u1", "docs", none, "folder", 0, [], ""⟩,
                 ⟨2, "u2", "stuff", none, "folder", 0, [], ""⟩] : List Doc) =
      projU "u1" ([⟨1, "u1", "docs", none, "folder", 0, [], ""⟩] : List Doc) ∧
    (∀ po itn fuel,
      (deleteFVItem "u1" po itn fuel
          [⟨1, "u1", "docs", none, "folder", 0, [], ""⟩,
           ⟨2, "u2", "stuff", none, "folder", 0, [], ""⟩]).1 =
        (deleteFVItem "u1" po itn fuel [⟨1, "u1", "docs", none, "folder", 0, [], ""⟩]).1 ∧
      projU "u1" (deleteFVItem "u1" po itn fuel
          [⟨1, "u1", "docs", none, "folder", 0, [], ""⟩,
           ⟨2, "u2", "stuff", none, "folder", 0, [], ""⟩]).2 =
        projU "u1" (deleteFVItem "u1" po itn fuel
          [⟨1, "u1", "docs", none, "folder", 0, [], ""⟩]).2 ∧
      othersU "u1" (deleteFVItem "u1" po itn fuel
          [⟨1, "u1", "docs", none, "folder", 0, [], ""⟩,
           ⟨2, "u2", "stuff", none, "folder", 0, [], ""⟩]).2 =
        othersU "u1" [⟨1, "u1", "docs", none, "folder", 0, [], ""⟩,
                      ⟨2, "u2", "stuff", none, "folder", 0, [], ""⟩]) :=
  ⟨by unfold UniqIds; decide, by unfold UniqIds; decide, by decide,
   (user_isolation "u1"
      [⟨1, "u1", "docs", none, "folder", 0, [], ""⟩,
       ⟨2, "u2", "stuff", none, "folder", 0, [], ""⟩]
      [⟨1, "u1", "docs", none, "folder", 0, [], ""⟩]
      (by unfold UniqIds; decide) (by unfold UniqIds; decide) (by decide)).2.2.2.1⟩
